import Mathlib

/-!
Verification of the grid-fragment clipboard transform engine of this
repository (table copy/cut/paste with spanning cells, plus the marker
sentinel codec that lets annotation ranges survive the structural edit).

The embedding follows the source files:
  packages/ckeditor5-table/src/tableclipboard.ts
  packages/ckeditor5-clipboard/src/utils/assignfragmentmarkers.ts
Helpers that the source imports from modules not present in this tree
(TableWalker, tableutils, utils/structure) are modelled from the spec and
marked as such in their doc comments.

Grids are embedded as lists of anchored cells: each record carries the
anchor coordinates of one table cell together with its spans, attributes
and children.  This is exactly the information the table algorithms read
and write; row containers only provide ordering, which the anchor
coordinates already determine.
-/

namespace TableClipboard

/-- Payload of one table cell: spans, attributes and content children.
Attributes and children are what `writer.cloneElement` duplicates, so
structural equality of `CellData` is structural-clone equality. -/
structure CellData where
  rowspan : Nat
  colspan : Nat
  attrs : List (String × String)
  children : List String
deriving DecidableEq, Repr

/-- A table cell anchored at a (row, column) slot of the grid. -/
structure Anchored where
  row : Nat
  col : Nat
  data : CellData
deriving DecidableEq, Repr

/-- A grid: the set of its cells, each with its anchor slot. -/
abbrev GTable := List Anchored

/-- Slot (r, c) is covered by cell `a` (anchor slot or spanned slot). -/
def coversB (a : Anchored) (r c : Nat) : Bool :=
  decide (a.row ≤ r) && decide (r < a.row + a.data.rowspan) &&
  decide (a.col ≤ c) && decide (c < a.col + a.data.colspan)

/-- Inclusive selection rectangle, as used throughout tableclipboard.ts
(`selection.firstRow`, `selection.lastRow`, `selection.firstColumn`,
`selection.lastColumn`). -/
structure SelRect where
  firstRow : Nat
  lastRow : Nat
  firstColumn : Nat
  lastColumn : Nat
deriving DecidableEq, Repr

/-- All slots of the rectangle in row-major order. -/
def rectSlots (sel : SelRect) : List (Nat × Nat) :=
  (List.range' sel.firstRow (sel.lastRow + 1 - sel.firstRow)).flatMap fun r =>
    (List.range' sel.firstColumn (sel.lastColumn + 1 - sel.firstColumn)).map fun c => (r, c)

/-- One record produced by the grid walker in `includeAllSlots` mode. -/
structure WSlot where
  row : Nat
  col : Nat
  cell : Option Anchored
  isAnchor : Bool
deriving DecidableEq, Repr

/-- Modelled from the spec: GridWalker (spec 4.1), `includeAllSlots` mode.
The walker enumerates every slot of the requested rectangle in row-major
order and reports the cell covering that slot (the first matching cell of
the table; on a well-formed grid it is unique) and whether the slot is the
cell's anchor.  The TableWalker source is not part of this tree. -/
def tableWalkerAllSlots (t : GTable) (sel : SelRect) : List WSlot :=
  (rectSlots sel).map fun rc =>
    let cell := t.find? fun a => coversB a rc.1 rc.2
    ⟨rc.1, rc.2, cell, cell.any fun a => decide (a.row = rc.1) && decide (a.col = rc.2)⟩

/-- Modelled from the spec: pasted-grid height via GridWalker (spec 4.4
step 1, `tableUtils.getRows`); the tableutils source is not in this tree.
The height of a grid is the number of row slots its cells cover. -/
def tableHeightT (t : GTable) : Nat :=
  t.foldl (fun m a => Nat.max m (a.row + a.data.rowspan)) 0

/-- Modelled from the spec: pasted-grid width via GridWalker (spec 4.4
step 1, `tableUtils.getColumns`); the tableutils source is not in this
tree.  The width of a grid is the number of column slots its cells cover. -/
def tableWidthT (t : GTable) : Nat :=
  t.foldl (fun m a => Nat.max m (a.col + a.data.colspan)) 0

/-- Modelled from the spec: `cropTableToDimensions` (spec 4.4 step 3); the
utils/structure source is not in this tree.  Cropping keeps the cells
anchored inside the crop window and trims their spans to the window. -/
def cropTableToDimensionsT (t : GTable) (endRow endColumn : Nat) : GTable :=
  (t.filter fun a => decide (a.row ≤ endRow) && decide (a.col ≤ endColumn)).map fun a =>
    ⟨a.row, a.col,
      ⟨Nat.min a.data.rowspan (endRow + 1 - a.row),
       Nat.min a.data.colspan (endColumn + 1 - a.col),
       a.data.attrs, a.data.children⟩⟩

/-- Modelled from the spec: `trimTableCellIfNeeded` (spec 4.4 step 6); the
utils/structure source is not in this tree.  A cell inserted at slot
(r, c) is trimmed so that its spans do not extend past the selection's
last row and last column. -/
def trimTableCellIfNeededT (d : CellData) (r c : Nat) (sel : SelRect) : CellData :=
  ⟨Nat.min d.rowspan (sel.lastRow + 1 - r),
   Nat.min d.colspan (sel.lastColumn + 1 - c),
   d.attrs, d.children⟩

/-- tableclipboard.ts `createLocationMap` (lines 603-613): a lookup from
pasted-grid slot coordinates to the cell anchored there, `none` when no
cell is anchored at the location (a spanned slot). -/
def createLocationMap (t : GTable) (width height : Nat) (r c : Nat) : Option CellData :=
  if r < height && c < width then
    (t.find? fun a => decide (a.row = r) && decide (a.col = c)).map (·.data)
  else none

/-- tableclipboard.ts `_replaceSelectedCellsWithPasted` (lines 311-374),
restricted to the destination slot walk: walk the destination rectangle in
`includeAllSlots` mode; at each slot pick the pasted cell through the
modulo indexing `(row - firstRow) % pastedHeight`,
`(column - firstColumn) % pastedWidth`; clone it (structural copy of its
data) and trim it to the selection; a spanned pasted slot inserts
nothing.  The returned list is `cellsToSelect`: the inserted cells in walk
order. -/
def replaceSelectedCellsWithPasted (pastedTable : GTable) (pastedHeight pastedWidth : Nat)
    (selectedTable : GTable) (sel : SelRect) : List Anchored :=
  (tableWalkerAllSlots selectedTable sel).filterMap fun s =>
    match createLocationMap pastedTable pastedWidth pastedHeight
        ((s.row - sel.firstRow) % pastedHeight) ((s.col - sel.firstColumn) % pastedWidth) with
    | none => none
    | some d => some ⟨s.row, s.col, trimTableCellIfNeededT d s.row s.col sel⟩

/-- tableclipboard.ts `_replaceSelectedCells` (lines 172-207): compute the
pasted dimensions, crop the pasted table to the selection size, and run
the destination slot walk.  (The rectangularization step is studied
separately; here the selection rectangle is an input.) -/
def replaceSelectedCellsModel (pastedTable : GTable) (selectedTable : GTable)
    (sel : SelRect) : List Anchored :=
  let pastedHeight := tableHeightT pastedTable
  let pastedWidth := tableWidthT pastedTable
  let selectionHeight := sel.lastRow - sel.firstRow + 1
  let selectionWidth := sel.lastColumn - sel.firstColumn + 1
  let cropped := cropTableToDimensionsT pastedTable
    (Nat.min selectionHeight pastedHeight - 1) (Nat.min selectionWidth pastedWidth - 1)
  replaceSelectedCellsWithPasted cropped pastedHeight pastedWidth selectedTable sel

theorem filterMap_eq_map_of_forall {α β : Type} {l : List α} {f : α → Option β} {g : α → β}
    (h : ∀ a ∈ l, f a = some (g a)) : l.filterMap f = l.map g := by
  induction l with
  | nil => rfl
  | cons x xs ih =>
    simp only [List.filterMap_cons, h x (by simp), List.map_cons]
    rw [ih fun a ha => h a (by simp [ha])]

theorem mem_rectSlots {sel : SelRect} {rc : Nat × Nat} (h : rc ∈ rectSlots sel) :
    sel.firstRow ≤ rc.1 ∧ rc.1 < sel.firstRow + (sel.lastRow + 1 - sel.firstRow) ∧
    sel.firstColumn ≤ rc.2 ∧ rc.2 < sel.firstColumn + (sel.lastColumn + 1 - sel.firstColumn) := by
  simp only [rectSlots, List.mem_flatMap, List.mem_map, List.mem_range'_1] at h
  obtain ⟨r, ⟨hr1, hr2⟩, c, ⟨hc1, hc2⟩, rfl⟩ := h
  exact ⟨hr1, hr2, hc1, hc2⟩

theorem rectSlots_length (sel : SelRect) :
    (rectSlots sel).length
      = (sel.lastRow + 1 - sel.firstRow) * (sel.lastColumn + 1 - sel.firstColumn) := by
  simp only [rectSlots, List.length_flatMap, Function.comp_def, List.length_map,
    List.length_range', List.map_const', List.sum_replicate, smul_eq_mul]

/-- C1: transplanting a 1×1 pasted grid (a single cell with no spans) into a
rectangular destination selection of size r × c whose cells have no spanning
cells makes the destination slot walk insert exactly r·c cells, each one a
structural clone (equal attributes and children, hence equal data) of the
single pasted cell, the pasted cell for each destination slot being chosen by
the modulo indexing (row - firstRow) % pastedHeight,
(column - firstColumn) % pastedWidth. -/
theorem c1_tiling_one_by_one (d : CellData) (selectedTable : GTable) (sel : SelRect)
    (hr : d.rowspan = 1) (hc : d.colspan = 1)
    (hfr : sel.firstRow ≤ sel.lastRow) (hfc : sel.firstColumn ≤ sel.lastColumn)
    (hnospan : ∀ a ∈ selectedTable, a.data.rowspan = 1 ∧ a.data.colspan = 1) :
    replaceSelectedCellsModel [⟨0, 0, d⟩] selectedTable sel
        = (rectSlots sel).map (fun rc => ⟨rc.1, rc.2, d⟩) ∧
    (replaceSelectedCellsModel [⟨0, 0, d⟩] selectedTable sel).length
        = (sel.lastRow + 1 - sel.firstRow) * (sel.lastColumn + 1 - sel.firstColumn) ∧
    (∀ a ∈ replaceSelectedCellsModel [⟨0, 0, d⟩] selectedTable sel, a.data = d) ∧
    (∀ rc ∈ rectSlots sel,
      createLocationMap [⟨0, 0, d⟩] (tableWidthT [⟨0, 0, d⟩]) (tableHeightT [⟨0, 0, d⟩])
          ((rc.1 - sel.firstRow) % tableHeightT [⟨0, 0, d⟩])
          ((rc.2 - sel.firstColumn) % tableWidthT [⟨0, 0, d⟩]) = some d) := by
  obtain ⟨rs, cs, ats, ch⟩ := d
  have hr' : rs = 1 := hr
  have hc' : cs = 1 := hc
  subst hr' hc'
  have hH : tableHeightT [⟨0, 0, ⟨1, 1, ats, ch⟩⟩] = 1 := rfl
  have hW : tableWidthT [⟨0, 0, ⟨1, 1, ats, ch⟩⟩] = 1 := rfl
  have hloc : ∀ rc : Nat × Nat,
      createLocationMap [⟨0, 0, ⟨1, 1, ats, ch⟩⟩] 1 1
        ((rc.1 - sel.firstRow) % 1) ((rc.2 - sel.firstColumn) % 1)
        = some ⟨1, 1, ats, ch⟩ := by
    intro rc
    simp [createLocationMap, Nat.mod_one, List.find?]
  have key : replaceSelectedCellsModel [⟨0, 0, ⟨1, 1, ats, ch⟩⟩] selectedTable sel
      = (rectSlots sel).map (fun rc => ⟨rc.1, rc.2, ⟨1, 1, ats, ch⟩⟩) := by
    unfold replaceSelectedCellsModel
    dsimp only
    rw [hH, hW]
    have e1 : (sel.lastRow - sel.firstRow + 1).min 1 - 1 = 0 := by
      simp only [Nat.min_def]
      split <;> omega
    have e2 : (sel.lastColumn - sel.firstColumn + 1).min 1 - 1 = 0 := by
      simp only [Nat.min_def]
      split <;> omega
    rw [e1, e2]
    have hcrop : cropTableToDimensionsT [⟨0, 0, ⟨1, 1, ats, ch⟩⟩] 0 0
        = [⟨0, 0, ⟨1, 1, ats, ch⟩⟩] := rfl
    rw [hcrop]
    unfold replaceSelectedCellsWithPasted tableWalkerAllSlots
    rw [List.filterMap_map]
    apply filterMap_eq_map_of_forall
    intro rc hrc
    obtain ⟨h1, h2, h3, h4⟩ := mem_rectSlots hrc
    have hrl : rc.1 ≤ sel.lastRow := by omega
    have hcl : rc.2 ≤ sel.lastColumn := by omega
    simp only [Function.comp_apply, hloc rc]
    have ht : trimTableCellIfNeededT ⟨1, 1, ats, ch⟩ rc.1 rc.2 sel = ⟨1, 1, ats, ch⟩ := by
      unfold trimTableCellIfNeededT
      have m1 : Nat.min 1 (sel.lastRow + 1 - rc.1) = 1 := by
        simp only [Nat.min_def]
        split <;> omega
      have m2 : Nat.min 1 (sel.lastColumn + 1 - rc.2) = 1 := by
        simp only [Nat.min_def]
        split <;> omega
      rw [m1, m2]
    rw [ht]
  refine ⟨key, ?_, ?_, ?_⟩
  · rw [key, List.length_map, rectSlots_length]
  · intro a ha
    rw [key] at ha
    obtain ⟨rc, _, rfl⟩ := List.mem_map.mp ha
    rfl
  · intro rc _
    rw [hH, hW]
    exact hloc rc

/-- A concrete pasted cell for exercising the tiling theorem. -/
def c1Cell : CellData := ⟨1, 1, [("background", "red")], ["x"]⟩

/-- A concrete 2×2 destination table with no spanning cells. -/
def c1Dest : GTable :=
  [⟨0, 0, ⟨1, 1, [], ["a"]⟩⟩, ⟨0, 1, ⟨1, 1, [], ["b"]⟩⟩,
   ⟨1, 0, ⟨1, 1, [], ["c"]⟩⟩, ⟨1, 1, ⟨1, 1, [], ["d"]⟩⟩]

/-- The full 2×2 destination selection rectangle. -/
def c1Sel : SelRect := ⟨0, 1, 0, 1⟩

/-- Witness for C1: the tiling theorem applied to a concrete 1×1 paste into a
concrete 2×2 selection. -/
theorem c1_tiling_one_by_one_witness :
    replaceSelectedCellsModel [⟨0, 0, c1Cell⟩] c1Dest c1Sel
        = (rectSlots c1Sel).map (fun rc => ⟨rc.1, rc.2, c1Cell⟩) ∧
    (replaceSelectedCellsModel [⟨0, 0, c1Cell⟩] c1Dest c1Sel).length
        = (c1Sel.lastRow + 1 - c1Sel.firstRow) * (c1Sel.lastColumn + 1 - c1Sel.firstColumn) ∧
    (∀ a ∈ replaceSelectedCellsModel [⟨0, 0, c1Cell⟩] c1Dest c1Sel, a.data = c1Cell) ∧
    (∀ rc ∈ rectSlots c1Sel,
      createLocationMap [⟨0, 0, c1Cell⟩] (tableWidthT [⟨0, 0, c1Cell⟩]) (tableHeightT [⟨0, 0, c1Cell⟩])
          ((rc.1 - c1Sel.firstRow) % tableHeightT [⟨0, 0, c1Cell⟩])
          ((rc.2 - c1Sel.firstColumn) % tableWidthT [⟨0, 0, c1Cell⟩]) = some c1Cell) :=
  c1_tiling_one_by_one c1Cell c1Dest c1Sel rfl rfl (by decide) (by decide) (by decide)

/-- tableclipboard.ts `isAffectedBySelection` (lines 702-710): is a cell at
`index` with `span` touching the inside of the band `[first, last]`. -/
def isAffectedBySelection (index span first last : Nat) : Bool :=
  (decide (first ≤ index) && decide (index ≤ last)) ||
  (decide (index < first) && decide (first ≤ index + span - 1))

/-- Modelled from the spec: `getVerticallyOverlappingCells` membership test
(utils/structure is not in this tree).  A cell anchored at `row` with its
row span strictly straddling the horizontal grid line `splitRow`, the scan
starting at `startRow`. -/
def vOverlapsB (a : Anchored) (splitRow : Nat) : Bool :=
  decide (a.row < splitRow) && decide (splitRow < a.row + a.data.rowspan)

/-- Modelled from the spec: `getHorizontallyOverlappingCells` membership
test (utils/structure is not in this tree). -/
def hOverlapsB (a : Anchored) (splitColumn : Nat) : Bool :=
  decide (a.col < splitColumn) && decide (splitColumn < a.col + a.data.colspan)

/-- Modelled from the spec: `splitHorizontally` (spec 4.2 splitting
semantics; utils/structure is not in this tree).  The two halves keep the
column span, their row spans sum to the original, attributes and children
are duplicated. -/
def splitHorizontallyT (a : Anchored) (splitRow : Nat) : List Anchored :=
  [⟨a.row, a.col, ⟨splitRow - a.row, a.data.colspan, a.data.attrs, a.data.children⟩⟩,
   ⟨splitRow, a.col, ⟨a.row + a.data.rowspan - splitRow, a.data.colspan, a.data.attrs, a.data.children⟩⟩]

/-- Modelled from the spec: `splitVertically` (spec 4.2, transpose of the
horizontal split; utils/structure is not in this tree). -/
def splitVerticallyT (a : Anchored) (splitColumn : Nat) : List Anchored :=
  [⟨a.row, a.col, ⟨a.data.rowspan, splitColumn - a.col, a.data.attrs, a.data.children⟩⟩,
   ⟨a.row, splitColumn, ⟨a.data.rowspan, a.col + a.data.colspan - splitColumn, a.data.attrs, a.data.children⟩⟩]

/-- tableclipboard.ts `doHorizontalSplit` (lines 669-681): split every cell
that vertically overlaps `splitRow` (scanning from `startRow`) and touches
the column band `[firstColumn, lastColumn]`; no split when the line is the
table's top edge. -/
def doHorizontalSplitT (t : GTable) (splitRow firstColumn lastColumn startRow : Nat) : GTable :=
  if splitRow < 1 then t
  else t.flatMap fun a =>
    if decide (startRow ≤ a.row) && vOverlapsB a splitRow &&
        isAffectedBySelection a.col a.data.colspan firstColumn lastColumn
    then splitHorizontallyT a splitRow else [a]

/-- tableclipboard.ts `doVerticalSplit` (lines 683-695). -/
def doVerticalSplitT (t : GTable) (splitColumn firstRow lastRow : Nat) : GTable :=
  if splitColumn < 1 then t
  else t.flatMap fun a =>
    if hOverlapsB a splitColumn &&
        isAffectedBySelection a.row a.data.rowspan firstRow lastRow
    then splitVerticallyT a splitColumn else [a]

/-- tableclipboard.ts `splitCellsToRectangularSelection` (lines 654-667):
two vertical passes (first column, after last column) then two horizontal
passes (first row, after last row, the second scanning from the first
row). -/
def splitCellsToRectangularSelectionT (t : GTable) (sel : SelRect) : GTable :=
  let t1 := doVerticalSplitT t sel.firstColumn sel.firstRow sel.lastRow
  let t2 := doVerticalSplitT t1 (sel.lastColumn + 1) sel.firstRow sel.lastRow
  let t3 := doHorizontalSplitT t2 sel.firstRow sel.firstColumn sel.lastColumn 0
  doHorizontalSplitT t3 (sel.lastRow + 1) sel.firstColumn sel.lastColumn sel.firstRow

/-- Cell `a` spans across the rectangle's first row, last row, first column
or last column: it covers slots on both sides of one of the four boundary
lines.  Crossing the line after `lastRow` is exactly
`row ≤ lastRow < row + rowspan - 1 + 1`, the spec's "span crosses
lastRow". -/
def crossesBoundaryB (a : Anchored) (sel : SelRect) : Bool :=
  vOverlapsB a sel.firstRow || vOverlapsB a (sel.lastRow + 1) ||
  hOverlapsB a sel.firstColumn || hOverlapsB a (sel.lastColumn + 1)

theorem hOverlapsB_iff {a : Anchored} {b : Nat} :
    hOverlapsB a b = true ↔ a.col < b ∧ b < a.col + a.data.colspan := by
  simp [hOverlapsB]

theorem vOverlapsB_iff {a : Anchored} {b : Nat} :
    vOverlapsB a b = true ↔ a.row < b ∧ b < a.row + a.data.rowspan := by
  simp [vOverlapsB]

theorem hOverlapsB_false_iff {a : Anchored} {b : Nat} :
    hOverlapsB a b = false ↔ ¬(a.col < b ∧ b < a.col + a.data.colspan) := by
  rw [Bool.eq_false_iff, Ne, hOverlapsB_iff]

theorem vOverlapsB_false_iff {a : Anchored} {b : Nat} :
    vOverlapsB a b = false ↔ ¬(a.row < b ∧ b < a.row + a.data.rowspan) := by
  rw [Bool.eq_false_iff, Ne, vOverlapsB_iff]

theorem isAffectedBySelection_iff {i s f l : Nat} :
    isAffectedBySelection i s f l = true ↔ (f ≤ i ∧ i ≤ l) ∨ (i < f ∧ f ≤ i + s - 1) := by
  simp [isAffectedBySelection]

theorem isAffected_of_sub {i s i' s' f l : Nat} (h1 : i ≤ i') (h2 : i' + s' ≤ i + s)
    (h3 : 1 ≤ s') (h : isAffectedBySelection i' s' f l = true) :
    isAffectedBySelection i s f l = true := by
  rw [isAffectedBySelection_iff] at *
  omega

/-- A vertical split pass leaves no row-affected cell overlapping its split
column. -/
theorem vpass_clears {t : GTable} {sc fR lR : Nat} :
    ∀ a' ∈ doVerticalSplitT t sc fR lR,
      isAffectedBySelection a'.row a'.data.rowspan fR lR = true →
      hOverlapsB a' sc = false := by
  intro a' ha' haff
  rw [hOverlapsB_false_iff]
  intro hov
  unfold doVerticalSplitT at ha'
  split at ha'
  · omega
  · simp only [List.mem_flatMap] at ha'
    obtain ⟨a, ha, hmem⟩ := ha'
    split at hmem
    · rename_i hcond
      rw [Bool.and_eq_true, hOverlapsB_iff] at hcond
      simp only [splitVerticallyT, List.mem_cons, List.not_mem_nil, or_false] at hmem
      rcases hmem with rfl | rfl
      · dsimp only at hov
        omega
      · dsimp only at hov
        omega
    · rename_i hcond
      simp only [List.mem_singleton] at hmem
      subst hmem
      rw [Bool.and_eq_true, hOverlapsB_iff] at hcond
      exact hcond ⟨hov, haff⟩

/-- A vertical split pass preserves "no row-affected cell overlaps column
`b`". -/
theorem vpass_preserves_col {t : GTable} {sc fR lR b : Nat}
    (H : ∀ a ∈ t, isAffectedBySelection a.row a.data.rowspan fR lR = true →
      hOverlapsB a b = false) :
    ∀ a' ∈ doVerticalSplitT t sc fR lR,
      isAffectedBySelection a'.row a'.data.rowspan fR lR = true →
      hOverlapsB a' b = false := by
  intro a' ha' haff
  unfold doVerticalSplitT at ha'
  split at ha'
  · exact H a' ha' haff
  · simp only [List.mem_flatMap] at ha'
    obtain ⟨a, ha, hmem⟩ := ha'
    split at hmem
    · rename_i hcond
      rw [Bool.and_eq_true, hOverlapsB_iff] at hcond
      simp only [splitVerticallyT, List.mem_cons, List.not_mem_nil, or_false] at hmem
      rcases hmem with rfl | rfl
      · have affA : isAffectedBySelection a.row a.data.rowspan fR lR = true := haff
        have hA := hOverlapsB_false_iff.mp (H a ha affA)
        rw [hOverlapsB_false_iff]
        dsimp only
        intro hov
        omega
      · have affA : isAffectedBySelection a.row a.data.rowspan fR lR = true := haff
        have hA := hOverlapsB_false_iff.mp (H a ha affA)
        rw [hOverlapsB_false_iff]
        dsimp only
        intro hov
        omega
    · simp only [List.mem_singleton] at hmem
      rw [hmem] at haff ⊢
      exact H a ha haff

/-- A horizontal split pass (scanning from `startRow`) leaves no
column-affected cell anchored at or after `startRow` overlapping its split
row. -/
theorem hpass_clears {t : GTable} {sr fC lC startRow : Nat} :
    ∀ a' ∈ doHorizontalSplitT t sr fC lC startRow,
      startRow ≤ a'.row →
      isAffectedBySelection a'.col a'.data.colspan fC lC = true →
      vOverlapsB a' sr = false := by
  intro a' ha' hstart haff
  rw [vOverlapsB_false_iff]
  intro hov
  unfold doHorizontalSplitT at ha'
  split at ha'
  · omega
  · simp only [List.mem_flatMap] at ha'
    obtain ⟨a, ha, hmem⟩ := ha'
    split at hmem
    · rename_i hcond
      rw [Bool.and_eq_true, Bool.and_eq_true, vOverlapsB_iff] at hcond
      simp only [splitHorizontallyT, List.mem_cons, List.not_mem_nil, or_false] at hmem
      rcases hmem with rfl | rfl
      · dsimp only at hov
        omega
      · dsimp only at hov
        omega
    · rename_i hcond
      simp only [List.mem_singleton] at hmem
      subst hmem
      rw [Bool.and_eq_true, Bool.and_eq_true, vOverlapsB_iff, decide_eq_true_eq] at hcond
      exact hcond ⟨⟨hstart, hov⟩, haff⟩

/-- A horizontal split pass preserves "no row-affected cell overlaps column
`b`": the pieces keep the column extent and stay inside the original row
extent. -/
theorem hpass_preserves_col {t : GTable} {sr fC lC startRow fR lR b : Nat}
    (H : ∀ a ∈ t, isAffectedBySelection a.row a.data.rowspan fR lR = true →
      hOverlapsB a b = false) :
    ∀ a' ∈ doHorizontalSplitT t sr fC lC startRow,
      isAffectedBySelection a'.row a'.data.rowspan fR lR = true →
      hOverlapsB a' b = false := by
  intro a' ha' haff
  unfold doHorizontalSplitT at ha'
  split at ha'
  · exact H a' ha' haff
  · simp only [List.mem_flatMap] at ha'
    obtain ⟨a, ha, hmem⟩ := ha'
    split at hmem
    · rename_i hcond
      rw [Bool.and_eq_true, Bool.and_eq_true, vOverlapsB_iff] at hcond
      simp only [splitHorizontallyT, List.mem_cons, List.not_mem_nil, or_false] at hmem
      rcases hmem with rfl | rfl
      · have affA : isAffectedBySelection a.row a.data.rowspan fR lR = true := by
          refine isAffected_of_sub (le_refl a.row) ?_ ?_ haff <;> dsimp only <;> omega
        have hA := H a ha affA
        rw [hOverlapsB_false_iff] at hA ⊢
        dsimp only
        exact hA
      · have affA : isAffectedBySelection a.row a.data.rowspan fR lR = true := by
          refine isAffected_of_sub ?_ ?_ ?_ haff <;> dsimp only <;> omega
        have hA := H a ha affA
        rw [hOverlapsB_false_iff] at hA ⊢
        dsimp only
        exact hA
    · simp only [List.mem_singleton] at hmem
      rw [hmem] at haff ⊢
      exact H a ha haff

/-- A horizontal split pass preserves "no column-affected cell overlaps row
`b`": the pieces keep the column extent and their row extents are
sub-intervals of the original. -/
theorem hpass_preserves_row {t : GTable} {sr fC lC startRow b : Nat}
    (H : ∀ a ∈ t, isAffectedBySelection a.col a.data.colspan fC lC = true →
      vOverlapsB a b = false) :
    ∀ a' ∈ doHorizontalSplitT t sr fC lC startRow,
      isAffectedBySelection a'.col a'.data.colspan fC lC = true →
      vOverlapsB a' b = false := by
  intro a' ha' haff
  unfold doHorizontalSplitT at ha'
  split at ha'
  · exact H a' ha' haff
  · simp only [List.mem_flatMap] at ha'
    obtain ⟨a, ha, hmem⟩ := ha'
    split at hmem
    · rename_i hcond
      rw [Bool.and_eq_true, Bool.and_eq_true, vOverlapsB_iff] at hcond
      simp only [splitHorizontallyT, List.mem_cons, List.not_mem_nil, or_false] at hmem
      rcases hmem with rfl | rfl
      · have affA : isAffectedBySelection a.col a.data.colspan fC lC = true := haff
        have hA := vOverlapsB_false_iff.mp (H a ha affA)
        rw [vOverlapsB_false_iff]
        dsimp only
        intro hov
        omega
      · have affA : isAffectedBySelection a.col a.data.colspan fC lC = true := haff
        have hA := vOverlapsB_false_iff.mp (H a ha affA)
        rw [vOverlapsB_false_iff]
        dsimp only
        intro hov
        omega
    · simp only [List.mem_singleton] at hmem
      rw [hmem] at haff ⊢
      exact H a ha haff

theorem coversB_iff {a : Anchored} {r c : Nat} :
    coversB a r c = true ↔
      a.row ≤ r ∧ r < a.row + a.data.rowspan ∧ a.col ≤ c ∧ c < a.col + a.data.colspan := by
  simp [coversB, and_assoc]

/-- After the four split passes of `splitCellsToRectangularSelection`, no
cell covering a slot of the selection rectangle spans across any of the
four rectangle boundaries. -/
theorem splitCells_no_crossing {t : GTable} {sel : SelRect} :
    ∀ a ∈ splitCellsToRectangularSelectionT t sel, ∀ r c,
      sel.firstRow ≤ r → r ≤ sel.lastRow → sel.firstColumn ≤ c → c ≤ sel.lastColumn →
      coversB a r c = true → crossesBoundaryB a sel = false := by
  intro a ha r c h1 h2 h3 h4 hcov
  rw [coversB_iff] at hcov
  simp only [splitCellsToRectangularSelectionT] at ha
  have rowAff : isAffectedBySelection a.row a.data.rowspan sel.firstRow sel.lastRow = true := by
    rw [isAffectedBySelection_iff]
    omega
  have colAff : isAffectedBySelection a.col a.data.colspan sel.firstColumn sel.lastColumn = true := by
    rw [isAffectedBySelection_iff]
    omega
  have F1 : hOverlapsB a sel.firstColumn = false :=
    hpass_preserves_col (hpass_preserves_col (vpass_preserves_col vpass_clears)) a ha rowAff
  have F2 : hOverlapsB a (sel.lastColumn + 1) = false :=
    hpass_preserves_col (hpass_preserves_col vpass_clears) a ha rowAff
  have F3 : vOverlapsB a sel.firstRow = false :=
    hpass_preserves_row (fun x hx hxa => hpass_clears x hx (Nat.zero_le _) hxa) a ha colAff
  have hrowge : sel.firstRow ≤ a.row := by
    rw [vOverlapsB_false_iff] at F3
    omega
  have F4 : vOverlapsB a (sel.lastRow + 1) = false :=
    hpass_clears a ha hrowge colAff
  simp [crossesBoundaryB, F1, F2, F3, F4]

def natMinList (init : Nat) (l : List Nat) : Nat := l.foldl Nat.min init

def natMaxList (init : Nat) (l : List Nat) : Nat := l.foldl Nat.max init

theorem natMinList_le_init (init : Nat) (l : List Nat) : natMinList init l ≤ init := by
  induction l generalizing init with
  | nil => exact le_refl _
  | cons x xs ih =>
    calc natMinList init (x :: xs) = natMinList (Nat.min init x) xs := rfl
    _ ≤ Nat.min init x := ih _
    _ ≤ init := Nat.min_le_left _ _

theorem natMinList_le_mem {y : Nat} {l : List Nat} (init : Nat) (h : y ∈ l) :
    natMinList init l ≤ y := by
  induction l generalizing init with
  | nil => cases h
  | cons x xs ih =>
    rcases List.mem_cons.mp h with rfl | h2
    · calc natMinList init (y :: xs) = natMinList (Nat.min init y) xs := rfl
      _ ≤ Nat.min init y := natMinList_le_init _ _
      _ ≤ y := Nat.min_le_right _ _
    · exact ih _ h2

theorem init_le_natMaxList (init : Nat) (l : List Nat) : init ≤ natMaxList init l := by
  induction l generalizing init with
  | nil => exact le_refl _
  | cons x xs ih =>
    calc init ≤ Nat.max init x := Nat.le_max_left _ _
    _ ≤ natMaxList (Nat.max init x) xs := ih _
    _ = natMaxList init (x :: xs) := rfl

theorem mem_le_natMaxList {y : Nat} {l : List Nat} (init : Nat) (h : y ∈ l) :
    y ≤ natMaxList init l := by
  induction l generalizing init with
  | nil => cases h
  | cons x xs ih =>
    rcases List.mem_cons.mp h with rfl | h2
    · calc y ≤ Nat.max init y := Nat.le_max_right _ _
      _ ≤ natMaxList (Nat.max init y) xs := init_le_natMaxList _ _
      _ = natMaxList init (y :: xs) := rfl
    · exact ih _ h2

/-- Modelled from the spec: `tableUtils.getRowIndexes(...).first` (spec 4.2
step 1, bounding box of the selected cells; tableutils is not in this
tree). -/
def minRowOf : List Anchored → Nat
  | [] => 0
  | a :: rest => natMinList a.row (rest.map (·.row))

/-- Modelled from the spec: the last row of the bounding box of the
selected cells' anchor slots and spans (spec 4.2 step 1). -/
def maxRowEndOf : List Anchored → Nat
  | [] => 0
  | a :: rest =>
    natMaxList (a.row + a.data.rowspan - 1) (rest.map fun x => x.row + x.data.rowspan - 1)

/-- Modelled from the spec: `tableUtils.getColumnIndexes(...).first`. -/
def minColOf : List Anchored → Nat
  | [] => 0
  | a :: rest => natMinList a.col (rest.map (·.col))

/-- Modelled from the spec: the last column of the bounding box of the
selected cells' anchor slots and spans. -/
def maxColEndOf : List Anchored → Nat
  | [] => 0
  | a :: rest =>
    natMaxList (a.col + a.data.colspan - 1) (rest.map fun x => x.col + x.data.colspan - 1)

theorem minRowOf_le {sel : List Anchored} {a : Anchored} (h : a ∈ sel) :
    minRowOf sel ≤ a.row := by
  cases sel with
  | nil => cases h
  | cons x rest =>
    rcases List.mem_cons.mp h with rfl | h2
    · exact natMinList_le_init _ _
    · exact natMinList_le_mem _ (List.mem_map_of_mem _ h2)

theorem le_maxRowEndOf {sel : List Anchored} {a : Anchored} (h : a ∈ sel) :
    a.row + a.data.rowspan - 1 ≤ maxRowEndOf sel := by
  cases sel with
  | nil => cases h
  | cons x rest =>
    rcases List.mem_cons.mp h with rfl | h2
    · exact init_le_natMaxList _ _
    · exact mem_le_natMaxList _ (List.mem_map_of_mem _ h2)

theorem minColOf_le {sel : List Anchored} {a : Anchored} (h : a ∈ sel) :
    minColOf sel ≤ a.col := by
  cases sel with
  | nil => cases h
  | cons x rest =>
    rcases List.mem_cons.mp h with rfl | h2
    · exact natMinList_le_init _ _
    · exact natMinList_le_mem _ (List.mem_map_of_mem _ h2)

theorem le_maxColEndOf {sel : List Anchored} {a : Anchored} (h : a ∈ sel) :
    a.col + a.data.colspan - 1 ≤ maxColEndOf sel := by
  cases sel with
  | nil => cases h
  | cons x rest =>
    rcases List.mem_cons.mp h with rfl | h2
    · exact init_le_natMaxList _ _
    · exact mem_le_natMaxList _ (List.mem_map_of_mem _ h2)

/-- Modelled from the spec: `tableUtils.isSelectionRectangular` (spec 4.2
step 4; tableutils is not in this tree).  The selection is rectangular when
the selected cells leave no gap in their bounding rectangle. -/
def isSelectionRectangularT (selectedCells : List Anchored) : Bool :=
  (rectSlots ⟨minRowOf selectedCells, maxRowEndOf selectedCells,
      minColOf selectedCells, maxColEndOf selectedCells⟩).all fun rc =>
    selectedCells.any fun a => coversB a rc.1 rc.2

/-- Modelled from the spec: `adjustLastRowIndex` (spec 4.2 step 4;
utils/structure is not in this tree): the last row is pushed down to the
row the selected cells' uniform spans reach. -/
def adjustLastRowIndexT (selectedCells : List Anchored) : Nat := maxRowEndOf selectedCells

/-- Modelled from the spec: `adjustLastColumnIndex` (spec 4.2 step 4). -/
def adjustLastColumnIndexT (selectedCells : List Anchored) : Nat := maxColEndOf selectedCells

/-- Modelled from the spec: `expandTableSize` with
`tableUtils.insertColumns` / `insertRows` (tableclipboard.ts lines 550-567,
spec 4.4 step 2): missing trailing columns and rows are added as fresh 1×1
cells. -/
def expandTableSizeT (t : GTable) (expectedHeight expectedWidth : Nat) : GTable :=
  let w := tableWidthT t
  let h := tableHeightT t
  let withCols := t ++ ((List.range' w (expectedWidth - w)).flatMap fun c =>
    (List.range h).map fun r => (⟨r, c, ⟨1, 1, [], []⟩⟩ : Anchored))
  withCols ++ ((List.range' h (expectedHeight - h)).flatMap fun r =>
    (List.range (Nat.max w expectedWidth)).map fun c => (⟨r, c, ⟨1, 1, [], []⟩⟩ : Anchored))

/-- tableclipboard.ts `prepareTableForPasting` (lines 486-545): bounding
box of the selected cells; a single selected cell expands the selection to
the pasted dimensions and grows the table; an expanded or non-rectangular
selection is made rectangular by splitting; otherwise only the last
row/column indexes are adjusted.  Returns the selection rectangle and the
updated content table. -/
def prepareTableForPasting (selectedTable : GTable) (selectedCells : List Anchored)
    (pastedHeight pastedWidth : Nat) : SelRect × GTable :=
  if selectedCells.length == 1 then
    let lR := maxRowEndOf selectedCells + pastedHeight - 1
    let lC := maxColEndOf selectedCells + pastedWidth - 1
    let rect : SelRect := ⟨minRowOf selectedCells, lR, minColOf selectedCells, lC⟩
    (rect, splitCellsToRectangularSelectionT
      (expandTableSizeT selectedTable (lR + 1) (lC + 1)) rect)
  else if !(isSelectionRectangularT selectedCells) then
    let rect : SelRect := ⟨minRowOf selectedCells, maxRowEndOf selectedCells,
      minColOf selectedCells, maxColEndOf selectedCells⟩
    (rect, splitCellsToRectangularSelectionT selectedTable rect)
  else
    (⟨minRowOf selectedCells, adjustLastRowIndexT selectedCells,
      minColOf selectedCells, adjustLastColumnIndexT selectedCells⟩, selectedTable)

/-- Two cells cover at least one common slot. -/
def overlappingB (a b : Anchored) : Bool :=
  decide (a.row < b.row + b.data.rowspan) && decide (b.row < a.row + a.data.rowspan) &&
  decide (a.col < b.col + b.data.colspan) && decide (b.col < a.col + a.data.colspan)

theorem overlapping_of_covers {a b : Anchored} {r c : Nat}
    (h1 : coversB a r c = true) (h2 : coversB b r c = true) : overlappingB a b = true := by
  rw [coversB_iff] at h1 h2
  simp only [overlappingB, Bool.and_eq_true, decide_eq_true_eq]
  omega

/-- C2: for every grid and every non-empty cell selection, after the
rectangularization step (prepareTableForPasting / the
splitCellsToRectangularSelection passes) returns a selection rectangle,
walking that rectangle with the grid walker in includeAllSlots mode yields
no cell whose row span or column span crosses the rectangle's firstRow,
lastRow, firstColumn or lastColumn boundary.  The selection cells must
belong to the grid and the grid must not stack overlapping cells (the
exactly-one-cover grid invariant of the data model). -/
theorem c2_rectangle_validity (selectedTable : GTable) (selectedCells : List Anchored)
    (pH pW : Nat) (sel' : SelRect) (t' : GTable)
    (hpp : prepareTableForPasting selectedTable selectedCells pH pW = (sel', t'))
    (hne : selectedCells ≠ [])
    (hsub : ∀ a ∈ selectedCells, a ∈ selectedTable)
    (huniq : ∀ a ∈ selectedTable, ∀ b ∈ selectedTable, overlappingB a b = true → a = b) :
    ∀ s ∈ tableWalkerAllSlots t' sel', ∀ a, s.cell = some a →
      crossesBoundaryB a sel' = false := by
  intro s hs a hcell
  unfold tableWalkerAllSlots at hs
  obtain ⟨rc, hrc, rfl⟩ := List.mem_map.mp hs
  dsimp only at hcell
  have hmemt : a ∈ t' := List.mem_of_find?_eq_some hcell
  have hcov : coversB a rc.1 rc.2 = true := by
    have h := List.find?_some hcell
    exact h
  have hb := mem_rectSlots hrc
  unfold prepareTableForPasting at hpp
  by_cases h1 : (selectedCells.length == 1) = true
  · rw [if_pos h1] at hpp
    dsimp only at hpp
    obtain ⟨e1, e2⟩ := Prod.mk.injEq _ _ _ _ |>.mp hpp
    subst e1
    subst e2
    exact splitCells_no_crossing a hmemt rc.1 rc.2 hb.1 (by dsimp only at hb ⊢; omega)
      hb.2.2.1 (by dsimp only at hb ⊢; omega) hcov
  · rw [if_neg h1] at hpp
    by_cases h2 : isSelectionRectangularT selectedCells = true
    · rw [if_neg (by simp [h2])] at hpp
      obtain ⟨e1, e2⟩ := Prod.mk.injEq _ _ _ _ |>.mp hpp
      subst e1
      subst e2
      have hrc' : rc ∈ rectSlots ⟨minRowOf selectedCells, maxRowEndOf selectedCells,
          minColOf selectedCells, maxColEndOf selectedCells⟩ := by
        simpa [adjustLastRowIndexT, adjustLastColumnIndexT] using hrc
      rw [isSelectionRectangularT, List.all_eq_true] at h2
      have hany := h2 rc hrc'
      rw [List.any_eq_true] at hany
      obtain ⟨a0, ha0, hcov0⟩ := hany
      obtain rfl : a = a0 :=
        huniq a hmemt a0 (hsub a0 ha0) (overlapping_of_covers hcov hcov0)
      have b1 := minRowOf_le ha0
      have b2 := le_maxRowEndOf ha0
      have b3 := minColOf_le ha0
      have b4 := le_maxColEndOf ha0
      rw [coversB_iff] at hcov0
      unfold crossesBoundaryB
      dsimp only [adjustLastRowIndexT, adjustLastColumnIndexT]
      have e1 : vOverlapsB a (minRowOf selectedCells) = false := by
        rw [vOverlapsB_false_iff]
        omega
      have e2 : vOverlapsB a (maxRowEndOf selectedCells + 1) = false := by
        rw [vOverlapsB_false_iff]
        omega
      have e3 : hOverlapsB a (minColOf selectedCells) = false := by
        rw [hOverlapsB_false_iff]
        omega
      have e4 : hOverlapsB a (maxColEndOf selectedCells + 1) = false := by
        rw [hOverlapsB_false_iff]
        omega
      simp [e1, e2, e3, e4]
    · rw [if_pos (by simp [h2])] at hpp
      dsimp only at hpp
      obtain ⟨e1, e2⟩ := Prod.mk.injEq _ _ _ _ |>.mp hpp
      subst e1
      subst e2
      exact splitCells_no_crossing a hmemt rc.1 rc.2 hb.1 (by dsimp only at hb ⊢; omega)
        hb.2.2.1 (by dsimp only at hb ⊢; omega) hcov

/-- A concrete 2×2 content table whose first column is one cell with
rowspan 2. -/
def c2Table : GTable :=
  [⟨0, 0, ⟨2, 1, [], ["A"]⟩⟩, ⟨0, 1, ⟨1, 1, [], ["B"]⟩⟩, ⟨1, 1, ⟨1, 1, [], ["C"]⟩⟩]

/-- A concrete single-cell selection inside `c2Table`. -/
def c2Cells : List Anchored := [⟨0, 1, ⟨1, 1, [], ["B"]⟩⟩]

/-- Witness for C2: rectangle validity applied to a concrete single-cell
selection expanded by a 2×1 paste; the walker slot (0, 1) resolves to the
selected cell and it crosses no boundary of the returned rectangle. -/
theorem c2_rectangle_validity_witness :
    crossesBoundaryB ⟨0, 1, ⟨1, 1, [], ["B"]⟩⟩ ⟨0, 1, 1, 1⟩ = false :=
  c2_rectangle_validity c2Table c2Cells 2 1 ⟨0, 1, 1, 1⟩ c2Table (by decide) (by decide)
    (by decide) (by decide) ⟨0, 1, some ⟨0, 1, ⟨1, 1, [], ["B"]⟩⟩, true⟩ (by decide)
    ⟨0, 1, ⟨1, 1, [], ["B"]⟩⟩ (by decide)

/-- An item at the top level of pasted content: a table, a text node, or a
container element carrying (concatenated) text. -/
inductive CItem
  | tableItem (t : GTable)
  | textItem (s : String)
  | paraItem (s : String)
deriving DecidableEq, Repr

/-- The pasted content handed to `getTableIfOnlyTableInContent`: a table
element directly, a document fragment (or container element) with
top-level children, or any other node. -/
inductive Content
  | tableNode (t : GTable)
  | fragment (children : List CItem)
  | otherNode
deriving DecidableEq, Repr

/-- A whitespace character, as ignored by
`model.hasContent(range, ignoreWhitespaces: true)`. -/
def isWsChar (c : Char) : Bool :=
  c == ' ' || c == '\t' || c == '\n' || c == '\r'

/-- Modelled from the spec: `model.hasContent(range, ignoreWhitespaces)`
(the document-model collaborator, spec 6): a run of items has content when
it holds a table or any non-whitespace text. -/
def hasContentIgnoringWs (items : List CItem) : Bool :=
  items.any fun it =>
    match it with
    | .tableItem _ => true
    | .textItem s => s.toList.any fun c => !(isWsChar c)
    | .paraItem s => s.toList.any fun c => !(isWsChar c)

/-- First table among the items, with the items before and after it. -/
def splitAtFirstTable : List CItem → Option (List CItem × GTable × List CItem)
  | [] => none
  | .tableItem t :: rest => some ([], t, rest)
  | x :: rest =>
    (splitAtFirstTable rest).map fun bta => (x :: bta.1, bta.2.1, bta.2.2)

/-- tableclipboard.ts `getTableIfOnlyTableInContent` (lines 438-480): the
content itself is a table; or it has exactly one child and that child is a
table; or the first table of the content has nothing but whitespace before
and after it.  Anything else gives `none`. -/
def getTableIfOnlyTableInContent (content : Content) : Option GTable :=
  match content with
  | .tableNode t => some t
  | .otherNode => none
  | .fragment children =>
    match children with
    | [CItem.tableItem t] => some t
    | _ =>
      match splitAtFirstTable children with
      | none => none
      | some (before, t, after) =>
        if hasContentIgnoringWs before || hasContentIgnoringWs after then none
        else some t

theorem splitAtFirstTable_sound {l b : List CItem} {t : GTable} {a : List CItem}
    (h : splitAtFirstTable l = some (b, t, a)) :
    l = b ++ CItem.tableItem t :: a ∧ ∀ x ∈ b, ∀ t', x ≠ CItem.tableItem t' := by
  induction l generalizing b with
  | nil => simp [splitAtFirstTable] at h
  | cons x rest ih =>
    cases x with
    | tableItem t0 =>
      simp only [splitAtFirstTable, Option.some_inj, Prod.mk.injEq] at h
      obtain ⟨rfl, rfl, rfl⟩ := h
      simp
    | textItem s =>
      simp only [splitAtFirstTable, Option.map_eq_some'] at h
      obtain ⟨⟨b', t', a'⟩, hr, heq⟩ := h
      simp only [Prod.mk.injEq] at heq
      obtain ⟨rfl, rfl, rfl⟩ := heq
      obtain ⟨ih1, ih2⟩ := ih hr
      refine ⟨by rw [ih1]; rfl, ?_⟩
      intro y hy t'
      rcases List.mem_cons.mp hy with rfl | hy2
      · simp
      · exact ih2 y hy2 t'
    | paraItem s =>
      simp only [splitAtFirstTable, Option.map_eq_some'] at h
      obtain ⟨⟨b', t', a'⟩, hr, heq⟩ := h
      simp only [Prod.mk.injEq] at heq
      obtain ⟨rfl, rfl, rfl⟩ := heq
      obtain ⟨ih1, ih2⟩ := ih hr
      refine ⟨by rw [ih1]; rfl, ?_⟩
      intro y hy t'
      rcases List.mem_cons.mp hy with rfl | hy2
      · simp
      · exact ih2 y hy2 t'

theorem splitAtFirstTable_of_append {b : List CItem} {t : GTable} {a : List CItem}
    (hb : ∀ x ∈ b, ∀ t', x ≠ CItem.tableItem t') :
    splitAtFirstTable (b ++ CItem.tableItem t :: a) = some (b, t, a) := by
  induction b with
  | nil => simp [splitAtFirstTable]
  | cons x b' ih =>
    have hx := hb x (by simp)
    have hrest : ∀ y ∈ b', ∀ t', y ≠ CItem.tableItem t' :=
      fun y hy => hb y (by simp [hy])
    cases x with
    | tableItem t0 => exact absurd rfl (hx t0)
    | textItem s =>
      simp only [List.cons_append, splitAtFirstTable, List.append_eq, ih hrest,
        Option.map_some']
    | paraItem s =>
      simp only [List.cons_append, splitAtFirstTable, List.append_eq, ih hrest,
        Option.map_some']

theorem no_table_of_no_content {l : List CItem} (h : hasContentIgnoringWs l = false) :
    ∀ x ∈ l, ∀ t, x ≠ CItem.tableItem t := by
  intro x hx t heq
  subst heq
  rw [← Bool.not_eq_true, hasContentIgnoringWs, List.any_eq_true] at h
  exact h ⟨CItem.tableItem t, hx, rfl⟩

/-- C9: the content classifier returns the grid when the content is a grid
node directly, or a container whose single child is a grid, or a container
whose top-level children contain exactly one grid with no non-whitespace
content before or after it; in every other case (non-whitespace content
beside the grid, or more than one grid, which is itself content after the
first one) it returns none. -/
theorem c9_classifier (content : Content) (t : GTable) :
    getTableIfOnlyTableInContent content = some t ↔
      content = .tableNode t ∨
      ∃ children, content = .fragment children ∧
        (children = [CItem.tableItem t] ∨
         ∃ before after, children = before ++ CItem.tableItem t :: after ∧
           hasContentIgnoringWs before = false ∧ hasContentIgnoringWs after = false) := by
  cases content with
  | tableNode t0 =>
    simp only [getTableIfOnlyTableInContent, Option.some_inj]
    constructor
    · intro h
      subst h
      exact Or.inl rfl
    · intro h
      rcases h with h | ⟨ch, hch, _⟩
      · rw [Content.tableNode.injEq] at h
        exact h
      · cases hch
  | otherNode =>
    simp [getTableIfOnlyTableInContent]
  | fragment children =>
    simp only [getTableIfOnlyTableInContent]
    constructor
    · intro h
      refine Or.inr ⟨children, rfl, ?_⟩
      split at h
      · rename_i t0
        rw [Option.some_inj] at h
        subst h
        exact Or.inl rfl
      · split at h
        · cases h
        · rename_i before t0 after hsplit
          split at h
          · cases h
          · rename_i hcontent
            rw [Option.some_inj] at h
            subst h
            obtain ⟨hdec, _⟩ := splitAtFirstTable_sound hsplit
            simp only [Bool.or_eq_true, not_or, Bool.not_eq_true] at hcontent
            exact Or.inr ⟨before, after, hdec, hcontent.1, hcontent.2⟩
    · intro h
      rcases h with h | ⟨ch, hch, hcase⟩
      · cases h
      · obtain rfl : children = ch := by injection hch
        rcases hcase with rfl | ⟨before, after, rfl, hb, ha⟩
        · rfl
        · have hnotb := no_table_of_no_content hb
          have hsp := @splitAtFirstTable_of_append before t after hnotb
          cases before with
          | nil =>
            cases after with
            | nil => rfl
            | cons y a' =>
              split
              · rename_i heq
                simp at heq
              · simp only [List.nil_append] at hsp ⊢
                rw [hsp]
                have hcond : (hasContentIgnoringWs [] || hasContentIgnoringWs (y :: a'))
                    = false := by
                  rw [ha]
                  rfl
                simp [hcond]
          | cons x b' =>
            split
            · rename_i heq
              simp at heq
            · rw [hsp]
              simp [hb, ha]

/-- Outcome of the overridden `model.insertContent` handler: not handled
(default insertion proceeds), handled by cleaning the pasted table and
falling through to default insertion, or a transplant that replaces the
selected cells. -/
inductive InsertOutcome
  | notHandled
  | genericCleanupFallback
  | transplant (cells : List Anchored)
deriving DecidableEq, Repr

/-- tableclipboard.ts `_onInsertContent` (lines 130-167): bail out for a
non-document selectable; bail out when the content is not a lone table;
with a table but zero selected cells, clean the pasted table and leave
handling to the generic insertion path; otherwise stop the event and
transplant. -/
def onInsertContent (selectableIsDocumentSelection : Bool) (content : Content)
    (selectedTable : GTable) (selectedCells : List Anchored) : InsertOutcome :=
  if !selectableIsDocumentSelection then .notHandled
  else
    match getTableIfOnlyTableInContent content with
    | none => .notHandled
    | some pasted =>
      if selectedCells.isEmpty then .genericCleanupFallback
      else
        let pr := prepareTableForPasting selectedTable selectedCells
          (tableHeightT pasted) (tableWidthT pasted)
        .transplant (replaceSelectedCellsModel pasted pr.2 pr.1)

/-- C8: whenever the destination selection contains zero grid cells, the
transplant operation is a benign no-op: it never reaches the transplant
branch (no replacement is performed, no error value exists in the
handler), and when the content did classify as a table it reports the
cleanup-and-fall-through outcome, leaving handling to the generic
insertion path. -/
theorem c8_empty_selection_noop (dsel : Bool) (content : Content) (st : GTable) :
    (∀ cells, onInsertContent dsel content st [] ≠ .transplant cells) ∧
    (dsel = true → ∀ t, getTableIfOnlyTableInContent content = some t →
      onInsertContent dsel content st [] = .genericCleanupFallback) := by
  cases dsel with
  | false =>
    constructor
    · intro cells
      simp [onInsertContent]
    · intro h
      cases h
  | true =>
    constructor
    · intro cells
      unfold onInsertContent
      simp only [Bool.not_true]
      rw [if_neg (by simp)]
      split
      · simp
      · simp [List.isEmpty_nil]
    · intro _ t ht
      unfold onInsertContent
      simp only [Bool.not_true]
      rw [if_neg (by simp)]
      rw [ht]
      simp [List.isEmpty_nil]

/-- Witness for C8: a concrete run with a lone-table content and an empty
destination selection reports the cleanup fallback. -/
theorem c8_empty_selection_noop_witness :
    onInsertContent true (Content.tableNode [⟨0, 0, ⟨1, 1, [], []⟩⟩]) c2Table []
      = InsertOutcome.genericCleanupFallback :=
  (c8_empty_selection_noop true (Content.tableNode [⟨0, 0, ⟨1, 1, [], []⟩⟩]) c2Table).2
    rfl [⟨0, 0, ⟨1, 1, [], []⟩⟩] rfl

end TableClipboard

namespace MarkerCodec

/-- Whether a sentinel stands at the start or at the end boundary of its
marker (the `data-type` attribute of the fake `$marker` element). -/
inductive BoundaryKind
  | bStart
  | bEnd
deriving DecidableEq, Repr

/-- One node of a flat document or fragment.  `id` is the node identity
(`writer.remove` and position lookups work by identity); a node with a
`markerName` is a fake `$marker` sentinel element carrying the `data-name`
attribute, and `markerKind` is its optional `data-type` attribute.  All
other content is represented by nodes with `markerName = none`. -/
structure FNode where
  id : Nat
  markerName : Option String
  markerKind : Option BoundaryKind
deriving DecidableEq, Repr

/-- A document or document fragment, flattened to traversal order;
positions are indexes into this list. -/
abbrev Fragment := List FNode

/-- The node is a fake `$marker` sentinel (it has a `data-name`). -/
def isFake (nd : FNode) : Bool := nd.markerName.isSome

/-- A marker of the registry: a named range, boundaries as positions. -/
structure Marker where
  name : String
  start : Nat
  stop : Nat
deriving DecidableEq, Repr

/-- Modelled from the spec: the marker-registry query
`getMarkersIntersectingRange` (spec 6, an external collaborator): ranges
`[start, stop)` and `[r.1, r.2)` share positions. -/
def intersectsRangeB (m : Marker) (r : Nat × Nat) : Bool :=
  decide (m.start < r.2) && decide (r.1 < m.stop)

/-- `name.startsWith "comment:"` of the source, in a form the kernel can
evaluate. -/
def hasCommentPrefixB (s : String) : Bool :=
  "comment:".data.isPrefixOf s.data

/-- assignfragmentmarkers.ts `_getCopyableMarkersFromSelection` (lines
16-25): for each selection range, the registry markers intersecting it
whose name starts with "comment:". -/
def getCopyableMarkersFromSelection (registry : List Marker)
    (selRanges : List (Nat × Nat)) : List Marker :=
  selRanges.flatMap fun r =>
    registry.filter fun m => intersectsRangeB m r && hasCommentPrefixB m.name

/-- Stable insertion into a sorted list: `x` goes in front of the first
element it relates to.  Used in place of the library merge sort so that
the sort evaluates inside the kernel; for a total comparison it produces
the same stable order as a JavaScript `sort`. -/
def insertSortedBy {α : Type} (le : α → α → Bool) (x : α) : List α → List α
  | [] => [x]
  | y :: ys => if le x y then x :: y :: ys else y :: insertSortedBy le x ys

/-- Stable insertion sort by `le`. -/
def sortBy {α : Type} (le : α → α → Bool) : List α → List α
  | [] => []
  | x :: xs => insertSortedBy le x (sortBy le xs)

theorem mem_insertSortedBy {α : Type} {le : α → α → Bool} {a x : α} :
    ∀ {l : List α}, a ∈ insertSortedBy le x l ↔ a = x ∨ a ∈ l := by
  intro l
  induction l with
  | nil => simp [insertSortedBy]
  | cons y ys ih =>
    unfold insertSortedBy
    split
    · simp
    · rw [List.mem_cons, List.mem_cons, ih]
      tauto

theorem mem_sortBy {α : Type} {le : α → α → Bool} {a : α} :
    ∀ {l : List α}, a ∈ sortBy le l ↔ a ∈ l := by
  intro l
  induction l with
  | nil => simp [sortBy]
  | cons y ys ih =>
    rw [sortBy, mem_insertSortedBy, List.mem_cons, ih]

/-- One planned sentinel insertion of the copy/cut encode step. -/
structure PlannedSentinel where
  pos : Nat
  markerName : String
  kind : BoundaryKind
deriving DecidableEq, Repr

/-- assignfragmentmarkers.ts `_insertFakeMarkersElements` (lines 27-57),
planning part: a start and an end sentinel for every marker, sorted by
position descending so earlier insertions cannot invalidate later
positions. -/
def sentinelPlan (markers : List Marker) : List PlannedSentinel :=
  sortBy (fun a b => decide (b.pos ≤ a.pos))
    (markers.flatMap fun m =>
      [⟨m.start, m.name, BoundaryKind.bStart⟩, ⟨m.stop, m.name, BoundaryKind.bEnd⟩])

/-- Ordered accumulation of an element under its marker name, as the
`Record<string, Array<Item>>` accumulators of the source do. -/
def addToGroup (groups : List (String × List FNode)) (name : String) (nd : FNode) :
    List (String × List FNode) :=
  match groups with
  | [] => [(name, [nd])]
  | (n, elems) :: rest =>
    if n = name then (n, elems ++ [nd]) :: rest
    else (n, elems) :: addToGroup rest name nd

/-- assignfragmentmarkers.ts `_insertFakeMarkersElements` (lines 27-57):
walk the descending-sorted plan; for each entry create a `$marker` element
carrying `data-name` and `data-type`, record it under its marker and
insert it at the boundary position.  Fresh node ids start at `startId`.
Returns the marker-to-elements map, the mutated document and the next
free id. -/
def insertFakeStep (acc : List (String × List FNode) × Fragment × Nat)
    (ps : PlannedSentinel) : List (String × List FNode) × Fragment × Nat :=
  (addToGroup acc.1 ps.markerName ⟨acc.2.2, some ps.markerName, some ps.kind⟩,
   acc.2.1.insertIdx ps.pos ⟨acc.2.2, some ps.markerName, some ps.kind⟩,
   acc.2.2 + 1)

def insertFakeMarkersElements (doc : Fragment) (markers : List Marker) (startId : Nat) :
    List (String × List FNode) × Fragment × Nat :=
  (sentinelPlan markers).foldl insertFakeStep ([], doc, startId)

/-- assignfragmentmarkers.ts `beforeCopySelectionMarkersFragment` (lines
125-133) / `insertAndCollectFakeMarkers` (lines 283-290): encode = collect
the copyable markers, then insert their sentinels. -/
def beforeCopySelectionMarkersFragment (doc : Fragment) (registry : List Marker)
    (selRanges : List (Nat × Nat)) (startId : Nat) :
    List (String × List FNode) × Fragment × Nat :=
  insertFakeMarkersElements doc (getCopyableMarkersFromSelection registry selRanges) startId

/-- tableclipboard.ts `_convertMarkersToElements` (lines 227-242): the
table-paste encode step; the created `$marker` elements carry only
`data-name` (their `markerKind` is `none`). -/
def convertMarkersStep (acc : Fragment × Nat) (pn : Nat × String) : Fragment × Nat :=
  (acc.1.insertIdx pn.1 ⟨acc.2, some pn.2, none⟩, acc.2 + 1)

def convertMarkersToElements (doc : Fragment) (markers : List (String × Nat × Nat))
    (startId : Nat) : Fragment × Nat :=
  (sortBy (fun a b => decide (b.1 ≤ a.1))
      (markers.flatMap fun mk => [(mk.2.1, mk.1), (mk.2.2, mk.1)])).foldl
    convertMarkersStep (doc, startId)

/-- assignfragmentmarkers.ts `_getAllFakeMarkersFromElement` (lines 59-78):
scan the fragment in traversal order, grouping the elements that carry a
`data-name` by that name. -/
def groupStep (acc : List (String × List FNode)) (nd : FNode) :
    List (String × List FNode) :=
  match nd.markerName with
  | some n => addToGroup acc n nd
  | none => acc

def getAllFakeMarkersFromElement (frag : Fragment) : List (String × List FNode) :=
  frag.foldl groupStep []

/-- `writer.remove` of a node, by identity.  Node ids are unique in every
fragment this development builds or quantifies over, so removing by id is
removal of the node. -/
def removeById (frag : Fragment) (i : Nat) : Fragment :=
  frag.filter fun nd => decide (nd.id ≠ i)

/-- Position just before a node (`writer.createPositionAt(node, 'before')`)
in the current fragment, as an index. -/
def idxOfId (frag : Fragment) (i : Nat) : Nat :=
  frag.findIdx fun nd => decide (nd.id = i)

/-- assignfragmentmarkers.ts `_removeFakeMarkersFromFragment` (lines
80-123) and the identical `_removeFakeMarkersInsideFragment` (lines
235-281), one group: a lone surviving sentinel of kind `end` reconstructs
the range from the beginning of the fragment (path [0] of its root, index
0) to the position just before the sentinel; a lone sentinel of kind
`start` reconstructs from just before the sentinel to the fragment end
after its removal; a lone sentinel with no recorded kind produces nothing
and is kept; a pair reconstructs the range between the two (the end
position computed after the start sentinel's removal); matched sentinels
are removed. -/
def processMarkerGroup (st : List (String × Nat × Nat) × Fragment)
    (g : String × List FNode) : List (String × Nat × Nat) × Fragment :=
  match g.2 with
  | [] => st
  | [startEl] =>
    match startEl.markerKind with
    | some BoundaryKind.bEnd =>
      (st.1 ++ [(g.1, 0, idxOfId st.2 startEl.id)], removeById st.2 startEl.id)
    | some BoundaryKind.bStart =>
      (st.1 ++ [(g.1, idxOfId st.2 startEl.id, (removeById st.2 startEl.id).length)],
       removeById st.2 startEl.id)
    | none => st
  | startEl :: endEl :: _ =>
    (st.1 ++ [(g.1, idxOfId st.2 startEl.id,
        idxOfId (removeById st.2 startEl.id) endEl.id)],
     removeById (removeById st.2 startEl.id) endEl.id)

/-- assignfragmentmarkers.ts `_removeFakeMarkersInsideFragment`, whole
reduce: process the groups in first-occurrence order, threading the
fragment. -/
def removeFakeMarkersInsideFragment (groups : List (String × List FNode))
    (frag : Fragment) : List (String × Nat × Nat) × Fragment :=
  groups.foldl processMarkerGroup ([], frag)

/-- assignfragmentmarkers.ts `afterCopySelectionMarkersFragment` (lines
135-154): decode the fragment's surviving sentinels into ranges, set them
on the fragment, then remove from the source document every sentinel the
encode step inserted.  Returns the fragment markers, the cleaned fragment
and the cleaned source document. -/
def afterCopySelectionMarkersFragment (sourceDoc frag : Fragment)
    (insertedIds : List Nat) :
    List (String × Nat × Nat) × Fragment × Fragment :=
  let res := removeFakeMarkersInsideFragment (getAllFakeMarkersFromElement frag) frag
  (res.1, res.2, insertedIds.foldl removeById sourceDoc)

/-- assignfragmentmarkers.ts `collectAndRemoveFakeMarkers` (lines 292-319):
as `afterCopySelectionMarkersFragment`, plus the fallback for a marker
whose sentinels all fell outside the fragment (the selection was inside
the marker): such a marker is set to cover the entire fragment
(`writer.createRangeIn(documentFragment)`). -/
def collectAndRemoveFakeMarkers (sourceDoc frag : Fragment)
    (inserted : List (String × List Nat)) :
    List (String × Nat × Nat) × Fragment × Fragment :=
  let res := removeFakeMarkersInsideFragment (getAllFakeMarkersFromElement frag) frag
  (res.1 ++ (inserted.filterMap fun mk =>
      if res.1.any fun e => e.1 == mk.1 then none
      else some (mk.1, 0, res.2.length)),
   res.2,
   (inserted.flatMap fun mk => mk.2).foldl removeById sourceDoc)

theorem foldl_inv {β σ : Type} (step : σ → β → σ) (P : σ → Prop)
    (h : ∀ s b, P s → P (step s b)) : ∀ (l : List β) (s : σ), P s → P (l.foldl step s) := by
  intro l
  induction l with
  | nil => intro s hs; exact hs
  | cons x xs ih => intro s hs; exact ih _ (h s x hs)

theorem mem_of_mem_insertIdx {α : Type} {nd x : α} :
    ∀ {n : Nat} {l : List α}, nd ∈ l.insertIdx n x → nd = x ∨ nd ∈ l := by
  intro n l
  induction l generalizing n with
  | nil =>
    cases n with
    | zero => intro h; simpa using h
    | succ n' => intro h; simp [List.insertIdx] at h
  | cons y ys ih =>
    cases n with
    | zero => intro h; simpa using h
    | succ n' =>
      intro h
      rw [List.insertIdx_succ_cons] at h
      rcases List.mem_cons.mp h with rfl | h2
      · exact Or.inr (by simp)
      · rcases ih h2 with h3 | h3
        · exact Or.inl h3
        · exact Or.inr (by simp [h3])

theorem addToGroup_forall {P : FNode → Prop} {groups : List (String × List FNode)}
    {name : String} {x : FNode}
    (hg : ∀ g ∈ groups, ∀ nd ∈ g.2, P nd) (hx : P x) :
    ∀ g ∈ addToGroup groups name x, ∀ nd ∈ g.2, P nd := by
  induction groups with
  | nil =>
    intro g hgmem nd hnd
    simp only [addToGroup, List.mem_singleton] at hgmem
    subst hgmem
    simp only [List.mem_singleton] at hnd
    exact hnd ▸ hx
  | cons p rest ih =>
    intro g hgmem nd hnd
    unfold addToGroup at hgmem
    split at hgmem
    · rcases List.mem_cons.mp hgmem with rfl | h2
      · rcases List.mem_append.mp hnd with h3 | h3
        · exact hg p (by simp) nd h3
        · simp only [List.mem_singleton] at h3
          exact h3 ▸ hx
      · exact hg g (by simp [h2]) nd hnd
    · rcases List.mem_cons.mp hgmem with rfl | h2
      · exact hg p (by simp) nd hnd
      · exact ih (fun g' hg' => hg g' (by simp [hg'])) g h2 nd hnd

/-- Counterexample to C3 as stated: the marker "foo" intersects the
selection range, yet the copy/cut encode step inserts no sentinel at all
for it, because `_getCopyableMarkersFromSelection` keeps only markers
whose name starts with "comment:". -/
theorem c3_counterexample :
    intersectsRangeB ⟨"foo", 1, 3⟩ (0, 5) = true ∧
    beforeCopySelectionMarkersFragment [⟨0, none, none⟩, ⟨1, none, none⟩]
        [⟨"foo", 1, 3⟩] [(0, 5)] 10
      = ([], [⟨0, none, none⟩, ⟨1, none, none⟩], 10) := by
  decide

/-- C3 as amended: for every marker whose range intersects a selection
range and whose name starts with "comment:", the encode step plans one
sentinel at the marker's start position and one at its end position (the
insertion loop inserts exactly the planned sentinels); intersecting
markers with other names are skipped by the name filter. -/
theorem c3_comment_markers_encoded (registry : List Marker)
    (selRanges : List (Nat × Nat)) (m : Marker) (r : Nat × Nat)
    (hm : m ∈ registry) (hr : r ∈ selRanges)
    (hint : intersectsRangeB m r = true)
    (hname : hasCommentPrefixB m.name = true) :
    (⟨m.start, m.name, BoundaryKind.bStart⟩ : PlannedSentinel)
        ∈ sentinelPlan (getCopyableMarkersFromSelection registry selRanges) ∧
    (⟨m.stop, m.name, BoundaryKind.bEnd⟩ : PlannedSentinel)
        ∈ sentinelPlan (getCopyableMarkersFromSelection registry selRanges) := by
  have hcm : m ∈ getCopyableMarkersFromSelection registry selRanges := by
    rw [getCopyableMarkersFromSelection, List.mem_flatMap]
    exact ⟨r, hr, List.mem_filter.mpr ⟨hm, by rw [hint, hname]; rfl⟩⟩
  constructor <;>
  · rw [sentinelPlan, mem_sortBy, List.mem_flatMap]
    exact ⟨m, hcm, by simp⟩

/-- Witness for the amended C3 at a concrete comment marker. -/
theorem c3_comment_markers_encoded_witness :
    (⟨1, "comment:a", BoundaryKind.bStart⟩ : PlannedSentinel)
        ∈ sentinelPlan (getCopyableMarkersFromSelection [⟨"comment:a", 1, 3⟩] [(0, 5)]) ∧
    (⟨3, "comment:a", BoundaryKind.bEnd⟩ : PlannedSentinel)
        ∈ sentinelPlan (getCopyableMarkersFromSelection [⟨"comment:a", 1, 3⟩] [(0, 5)]) :=
  c3_comment_markers_encoded [⟨"comment:a", 1, 3⟩] [(0, 5)] ⟨"comment:a", 1, 3⟩ (0, 5)
    (by decide) (by decide) (by decide) (by decide)

/-- Counterexample to C4 as stated: the table-paste encode step
(`_convertMarkersToElements`) creates its two sentinels with only the
`data-name` attribute; neither carries a start/end boundary record. -/
theorem c4_counterexample :
    ((convertMarkersToElements [⟨0, none, none⟩] [("comment:a", 0, 1)] 5).1.filter
        isFake).length = 2 ∧
    ((convertMarkersToElements [⟨0, none, none⟩] [("comment:a", 0, 1)] 5).1.filter
        isFake).all (fun nd => nd.markerKind == none) = true := by
  decide

/-- C4 as amended: every sentinel inserted by the copy/cut encode step
carries a record of whether it is the marker's start or end boundary,
while the table-paste encode step records only the marker name: every
element it adds to the document carries no boundary kind. -/
theorem c4_boundary_kinds (doc : Fragment) (markers : List Marker) (startId : Nat)
    (doc2 : Fragment) (mks : List (String × Nat × Nat)) (startId2 : Nat) :
    (∀ g ∈ (insertFakeMarkersElements doc markers startId).1, ∀ nd ∈ g.2,
      nd.markerKind.isSome = true) ∧
    (∀ nd ∈ (convertMarkersToElements doc2 mks startId2).1,
      nd ∈ doc2 ∨ (nd.markerName.isSome = true ∧ nd.markerKind = none)) := by
  constructor
  · unfold insertFakeMarkersElements
    refine foldl_inv insertFakeStep
      (fun acc => ∀ g ∈ acc.1, ∀ nd ∈ g.2, nd.markerKind.isSome = true) ?_ _ _ ?_
    · intro acc ps hacc
      exact addToGroup_forall hacc rfl
    · intro g hg
      cases hg
  · unfold convertMarkersToElements
    refine foldl_inv convertMarkersStep
      (fun acc => ∀ nd ∈ acc.1,
        nd ∈ doc2 ∨ (nd.markerName.isSome = true ∧ nd.markerKind = none)) ?_ _ _ ?_
    · intro acc pn hacc nd hnd
      rcases mem_of_mem_insertIdx hnd with rfl | h2
      · exact Or.inr ⟨rfl, rfl⟩
      · exact hacc nd h2
    · intro nd hnd
      exact Or.inl hnd

/-- Witness for the amended C4: a concrete copy-path sentinel group and a
concrete table-path insertion. -/
theorem c4_boundary_kinds_witness :
    (∀ g ∈ (insertFakeMarkersElements [⟨0, none, none⟩] [⟨"comment:a", 0, 1⟩] 7).1,
      ∀ nd ∈ g.2, nd.markerKind.isSome = true) ∧
    (∀ nd ∈ (convertMarkersToElements [⟨0, none, none⟩] [("comment:a", 0, 1)] 5).1,
      nd ∈ [(⟨0, none, none⟩ : FNode)] ∨
        (nd.markerName.isSome = true ∧ nd.markerKind = none)) :=
  c4_boundary_kinds [⟨0, none, none⟩] [⟨"comment:a", 0, 1⟩] 7
    [⟨0, none, none⟩] [("comment:a", 0, 1)] 5

theorem groupStep_not_fake {acc : List (String × List FNode)} {nd : FNode}
    (h : isFake nd = false) : groupStep acc nd = acc := by
  unfold groupStep
  cases hnm : nd.markerName with
  | none => rfl
  | some n =>
    rw [isFake, hnm] at h
    cases h

theorem foldl_groupStep_no_fakes {l : Fragment} (h : ∀ nd ∈ l, isFake nd = false) :
    ∀ acc, l.foldl groupStep acc = acc := by
  induction l with
  | nil => intro acc; rfl
  | cons x xs ih =>
    intro acc
    rw [List.foldl_cons, groupStep_not_fake (h x (by simp))]
    exact ih (fun nd hnd => h nd (by simp [hnd])) acc

theorem findIdx_append_of_not {α : Type} {p : α → Bool} {l1 l2 : List α}
    (h : ∀ x ∈ l1, p x = false) :
    (l1 ++ l2).findIdx p = l1.length + l2.findIdx p := by
  induction l1 with
  | nil => simp
  | cons x xs ih =>
    rw [List.cons_append, List.findIdx_cons, h x (by simp),
      ih (fun y hy => h y (by simp [hy]))]
    simp [Nat.add_comm, Nat.add_assoc]

/-- C5: when decode finds exactly one surviving sentinel for a marker name
and its recorded boundary kind is end, the reconstructed range runs from
the beginning of the decoded fragment (position at path [0] of the
sentinel's root, index 0 here) to the position just before the sentinel,
and the sentinel is removed.  The fragment is `pre ++ f :: post` with `f`
the only sentinel; node ids are distinct identities. -/
theorem c5_lone_end_sentinel (pre post : Fragment) (f : FNode) (m : String)
    (hname : f.markerName = some m) (hkind : f.markerKind = some BoundaryKind.bEnd)
    (hpre : ∀ nd ∈ pre, isFake nd = false)
    (hpost : ∀ nd ∈ post, isFake nd = false)
    (hidpre : ∀ nd ∈ pre, nd.id ≠ f.id)
    (hidpost : ∀ nd ∈ post, nd.id ≠ f.id) :
    removeFakeMarkersInsideFragment (getAllFakeMarkersFromElement (pre ++ f :: post))
        (pre ++ f :: post)
      = ([(m, 0, pre.length)], pre ++ post) := by
  have hgroups : getAllFakeMarkersFromElement (pre ++ f :: post) = [(m, [f])] := by
    rw [getAllFakeMarkersFromElement, List.foldl_append, foldl_groupStep_no_fakes hpre,
      List.foldl_cons]
    have hstep : groupStep [] f = [(m, [f])] := by
      unfold groupStep
      rw [hname]
      rfl
    rw [hstep, foldl_groupStep_no_fakes hpost]
  rw [hgroups]
  have hidx : idxOfId (pre ++ f :: post) f.id = pre.length := by
    rw [idxOfId, findIdx_append_of_not (fun x hx => by simp [hidpre x hx])]
    rw [List.findIdx_cons]
    simp
  have hrem : removeById (pre ++ f :: post) f.id = pre ++ post := by
    rw [removeById, List.filter_append, List.filter_cons]
    have : (decide (f.id ≠ f.id)) = false := by simp
    rw [this]
    rw [List.filter_eq_self.mpr (fun a ha => by simp [hidpre a ha]),
      List.filter_eq_self.mpr (fun a ha => by simp [hidpost a ha])]
    simp
  rw [removeFakeMarkersInsideFragment, List.foldl_cons, List.foldl_nil]
  unfold processMarkerGroup
  rw [show ((m, [f]) : String × List FNode).2 = [f] from rfl]
  simp only [hkind, hidx, hrem]
  rfl

/-- Witness for C5 on a concrete fragment with one lone end sentinel. -/
theorem c5_lone_end_sentinel_witness :
    removeFakeMarkersInsideFragment
        (getAllFakeMarkersFromElement
          ([⟨0, none, none⟩] ++ ⟨7, some "comment:a", some BoundaryKind.bEnd⟩ ::
            [⟨1, none, none⟩]))
        ([⟨0, none, none⟩] ++ ⟨7, some "comment:a", some BoundaryKind.bEnd⟩ ::
          [⟨1, none, none⟩])
      = ([("comment:a", 0, 1)], [⟨0, none, none⟩] ++ [⟨1, none, none⟩]) :=
  c5_lone_end_sentinel [⟨0, none, none⟩] [⟨1, none, none⟩]
    ⟨7, some "comment:a", some BoundaryKind.bEnd⟩ "comment:a" rfl rfl
    (by decide) (by decide) (by decide) (by decide)

theorem foldl_inv_mem {β σ : Type} (step : σ → β → σ) (P : σ → Prop) :
    ∀ (l : List β), (∀ s b, b ∈ l → P s → P (step s b)) → ∀ s, P s → P (l.foldl step s) := by
  intro l
  induction l with
  | nil => intro _ s hs; exact hs
  | cons x xs ih =>
    intro h s hs
    exact ih (fun s' b hb => h s' b (by simp [hb])) _ (h s x (by simp) hs)

theorem addToGroup_key {groups : List (String × List FNode)} {n : String} {x : FNode} :
    ∀ g ∈ addToGroup groups n x, (∃ g0 ∈ groups, g.1 = g0.1) ∨ g.1 = n := by
  induction groups with
  | nil =>
    intro g hg
    simp only [addToGroup, List.mem_singleton] at hg
    subst hg
    exact Or.inr rfl
  | cons p rest ih =>
    intro g hg
    unfold addToGroup at hg
    split at hg
    · rcases List.mem_cons.mp hg with rfl | h2
      · exact Or.inl ⟨p, by simp, rfl⟩
      · exact Or.inl ⟨g, by simp [h2], rfl⟩
    · rcases List.mem_cons.mp hg with rfl | h2
      · exact Or.inl ⟨p, by simp, rfl⟩
      · rcases ih g h2 with ⟨g0, hg0, he⟩ | he
        · exact Or.inl ⟨g0, by simp [hg0], he⟩
        · exact Or.inr he

theorem group_names_from_fakes {frag : Fragment} :
    ∀ g ∈ getAllFakeMarkersFromElement frag, ∃ nd ∈ frag, nd.markerName = some g.1 := by
  rw [getAllFakeMarkersFromElement]
  refine foldl_inv_mem groupStep
    (fun acc => ∀ g ∈ acc, ∃ nd ∈ frag, nd.markerName = some g.1) frag ?_ [] (by simp)
  intro s nd hnd hs g hg
  unfold groupStep at hg
  split at hg
  · rename_i n heq
    rcases addToGroup_key g hg with ⟨g0, hg0, he⟩ | he
    · obtain ⟨nd0, hnd0, hname0⟩ := hs g0 hg0
      exact ⟨nd0, hnd0, by rw [hname0, he]⟩
    · exact ⟨nd, hnd, by rw [heq, he]⟩
  · exact hs g hg

theorem ranges_names {groups : List (String × List FNode)} {frag : Fragment} :
    ∀ e ∈ (removeFakeMarkersInsideFragment groups frag).1, ∃ g ∈ groups, e.1 = g.1 := by
  rw [removeFakeMarkersInsideFragment]
  refine foldl_inv_mem processMarkerGroup
    (fun st => ∀ e ∈ st.1, ∃ g ∈ groups, e.1 = g.1) groups ?_ _ (by simp)
  intro st g hgmem hst e he
  unfold processMarkerGroup at he
  split at he
  · exact hst e he
  · split at he
    · rcases List.mem_append.mp he with h | h
      · exact hst e h
      · simp only [List.mem_singleton] at h
        exact ⟨g, hgmem, by rw [h]⟩
    · rcases List.mem_append.mp he with h | h
      · exact hst e h
      · simp only [List.mem_singleton] at h
        exact ⟨g, hgmem, by rw [h]⟩
    · exact hst e he
  · rcases List.mem_append.mp he with h | h
    · exact hst e h
    · simp only [List.mem_singleton] at h
      exact ⟨g, hgmem, by rw [h]⟩

theorem lookup_append_right {k : String} {l1 l2 : List (String × Nat × Nat)}
    (h : ∀ e ∈ l1, e.1 ≠ k) : (l1 ++ l2).lookup k = l2.lookup k := by
  induction l1 with
  | nil => rfl
  | cons p es ih =>
    obtain ⟨k1, v1⟩ := p
    rw [List.cons_append]
    have hne : (k == k1) = false :=
      beq_eq_false_iff_ne.mpr fun he => h (k1, v1) (by simp) (by rw [he])
    simp only [List.lookup, hne]
    exact ih fun e he => h e (by simp [he])

theorem lookup_all_same {k : String} {v : Nat × Nat} :
    ∀ {l : List (String × Nat × Nat)}, (∃ e ∈ l, e.1 = k) →
      (∀ e ∈ l, e.1 = k → e.2 = v) → l.lookup k = some v := by
  intro l
  induction l with
  | nil =>
    rintro ⟨e, he, _⟩ _
    cases he
  | cons p es ih =>
    rintro ⟨e, he, hek⟩ hall
    obtain ⟨k1, v1⟩ := p
    by_cases hk : k = k1
    · have hbe : (k == k1) = true := beq_iff_eq.mpr hk
      simp only [List.lookup, hbe]
      have := hall (k1, v1) (by simp) hk.symm
      rw [← this]
    · have hbe : (k == k1) = false := beq_eq_false_iff_ne.mpr hk
      simp only [List.lookup, hbe]
      refine ih ⟨e, ?_, hek⟩ fun e' he' hk' => hall e' (by simp [he']) hk'
      rcases List.mem_cons.mp he with rfl | h2
      · exact absurd hek.symm hk
      · exact h2

/-- C6: a marker that was encoded (its sentinels were inserted into the
source) but whose sentinels do not survive in the extracted fragment — the
cut region lay entirely inside the marker — is set on the fragment by
decode with a range covering the entire fragment
(`writer.createRangeIn(documentFragment)`: from index 0 to the cleaned
fragment's length). -/
theorem c6_zero_sentinels_full_fragment (sourceDoc frag : Fragment)
    (inserted : List (String × List Nat)) (mk : String × List Nat)
    (hmk : mk ∈ inserted)
    (habsent : ∀ nd ∈ frag, nd.markerName ≠ some mk.1) :
    List.lookup mk.1 (collectAndRemoveFakeMarkers sourceDoc frag inserted).1
      = some (0, (collectAndRemoveFakeMarkers sourceDoc frag inserted).2.1.length) := by
  have hno : ∀ e ∈ (removeFakeMarkersInsideFragment
      (getAllFakeMarkersFromElement frag) frag).1, e.1 ≠ mk.1 := by
    intro e he heq
    obtain ⟨g, hg, hge⟩ := ranges_names e he
    obtain ⟨nd, hnd, hname⟩ := group_names_from_fakes g hg
    exact habsent nd hnd (by rw [hname, ← hge, heq])
  rw [collectAndRemoveFakeMarkers]
  dsimp only
  rw [lookup_append_right hno]
  apply lookup_all_same
  · refine ⟨(mk.1, 0, (removeFakeMarkersInsideFragment
        (getAllFakeMarkersFromElement frag) frag).2.length),
      List.mem_filterMap.mpr ⟨mk, hmk, ?_⟩, rfl⟩
    rw [if_neg]
    intro hany
    rw [List.any_eq_true] at hany
    obtain ⟨e, he, hbe⟩ := hany
    exact hno e he (beq_iff_eq.mp hbe)
  · intro e he heq
    obtain ⟨mk', hmk', hfe⟩ := List.mem_filterMap.mp he
    split at hfe
    · cases hfe
    · rw [Option.some_inj] at hfe
      rw [← hfe]

/-- Witness for C6: one encoded marker with no surviving fragment sentinel
is restored over the whole fragment. -/
theorem c6_zero_sentinels_full_fragment_witness :
    List.lookup "comment:a"
        (collectAndRemoveFakeMarkers
          [⟨0, none, none⟩, ⟨5, some "comment:a", some BoundaryKind.bStart⟩,
            ⟨1, none, none⟩, ⟨6, some "comment:a", some BoundaryKind.bEnd⟩]
          [⟨2, none, none⟩, ⟨3, none, none⟩]
          [("comment:a", [5, 6])]).1
      = some (0, (collectAndRemoveFakeMarkers
          [⟨0, none, none⟩, ⟨5, some "comment:a", some BoundaryKind.bStart⟩,
            ⟨1, none, none⟩, ⟨6, some "comment:a", some BoundaryKind.bEnd⟩]
          [⟨2, none, none⟩, ⟨3, none, none⟩]
          [("comment:a", [5, 6])]).2.1.length) :=
  c6_zero_sentinels_full_fragment
    [⟨0, none, none⟩, ⟨5, some "comment:a", some BoundaryKind.bStart⟩,
      ⟨1, none, none⟩, ⟨6, some "comment:a", some BoundaryKind.bEnd⟩]
    [⟨2, none, none⟩, ⟨3, none, none⟩]
    [("comment:a", [5, 6])] ("comment:a", [5, 6]) (by decide) (by decide)

theorem mem_foldl_removeById {nd : FNode} :
    ∀ (ids : List Nat) (doc : Fragment), nd ∈ ids.foldl removeById doc →
      nd ∈ doc ∧ nd.id ∉ ids := by
  intro ids
  induction ids with
  | nil =>
    intro doc h
    exact ⟨h, by simp⟩
  | cons i is ih =>
    intro doc h
    rw [List.foldl_cons] at h
    obtain ⟨h1, h2⟩ := ih _ h
    rw [removeById, List.mem_filter, decide_eq_true_eq] at h1
    refine ⟨h1.1, ?_⟩
    intro hc
    rcases List.mem_cons.mp hc with he | he
    · exact h1.2 he
    · exact h2 he

theorem id_notin_removeById {fr : Fragment} {i : Nat} :
    i ∉ (removeById fr i).map (fun nd => nd.id) := by
  intro h
  obtain ⟨nd, hnd, heq⟩ := List.mem_map.mp h
  rw [removeById, List.mem_filter, decide_eq_true_eq] at hnd
  exact hnd.2 heq

theorem notin_removeById_of_notin {fr : Fragment} {i j : Nat}
    (h : i ∉ fr.map (fun nd => nd.id)) :
    i ∉ (removeById fr j).map (fun nd => nd.id) := by
  intro hc
  obtain ⟨nd, hnd, heq⟩ := List.mem_map.mp hc
  rw [removeById, List.mem_filter] at hnd
  exact h (List.mem_map.mpr ⟨nd, hnd.1, heq⟩)

theorem id_absent_foldl {i : Nat} {groups : List (String × List FNode)}
    {st : List (String × Nat × Nat) × Fragment}
    (h : i ∉ st.2.map (fun nd => nd.id)) :
    i ∉ ((groups.foldl processMarkerGroup st).2.map (fun nd => nd.id)) := by
  refine foldl_inv processMarkerGroup
    (fun s => i ∉ s.2.map (fun nd => nd.id)) ?_ groups st h
  intro s g hs
  unfold processMarkerGroup
  split
  · exact hs
  · split
    · exact notin_removeById_of_notin hs
    · exact notin_removeById_of_notin hs
    · exact hs
  · exact notin_removeById_of_notin (notin_removeById_of_notin hs)

theorem frag_subset_foldl {groups : List (String × List FNode)} {frag : Fragment}
    {st : List (String × Nat × Nat) × Fragment}
    (hst : ∀ nd ∈ st.2, nd ∈ frag) :
    ∀ nd ∈ (groups.foldl processMarkerGroup st).2, nd ∈ frag := by
  refine foldl_inv processMarkerGroup (fun s => ∀ nd ∈ s.2, nd ∈ frag) ?_ groups st hst
  intro s g hs
  unfold processMarkerGroup
  split
  · exact hs
  · split
    · intro nd hnd
      simp only [removeById, List.mem_filter] at hnd
      exact hs nd hnd.1
    · intro nd hnd
      simp only [removeById, List.mem_filter] at hnd
      exact hs nd hnd.1
    · exact hs
  · intro nd hnd
    simp only [removeById, List.mem_filter] at hnd
    exact hs nd hnd.1.1

theorem addToGroup_mem_self (groups : List (String × List FNode)) (n : String)
    (x : FNode) : ∃ g ∈ addToGroup groups n x, x ∈ g.2 := by
  induction groups with
  | nil => exact ⟨(n, [x]), by simp [addToGroup], by simp⟩
  | cons p rest ih =>
    unfold addToGroup
    split
    · exact ⟨(p.1, p.2 ++ [x]), by simp, by simp⟩
    · obtain ⟨g, hg, hx⟩ := ih
      exact ⟨g, by simp [hg], hx⟩

theorem addToGroup_mono {groups : List (String × List FNode)} {n : String}
    {x nd : FNode} (h : ∃ g ∈ groups, nd ∈ g.2) :
    ∃ g ∈ addToGroup groups n x, nd ∈ g.2 := by
  induction groups with
  | nil =>
    obtain ⟨g, hg, _⟩ := h
    cases hg
  | cons p rest ih =>
    obtain ⟨k, es⟩ := p
    obtain ⟨g, hg, hnd⟩ := h
    by_cases hk : k = n
    · have hadd : addToGroup ((k, es) :: rest) n x = (k, es ++ [x]) :: rest := by
        unfold addToGroup
        rw [if_pos hk]
      rw [hadd]
      rcases List.mem_cons.mp hg with rfl | h2
      · exact ⟨(k, es ++ [x]), by simp, List.mem_append.mpr (Or.inl hnd)⟩
      · exact ⟨g, by simp [h2], hnd⟩
    · have hadd : addToGroup ((k, es) :: rest) n x = (k, es) :: addToGroup rest n x := by
        unfold addToGroup
        rw [if_neg hk]
        cases rest with
        | nil => rfl
        | cons q qs => rfl
      rw [hadd]
      rcases List.mem_cons.mp hg with rfl | h2
      · exact ⟨(k, es), by simp, hnd⟩
      · obtain ⟨g', hg', hnd'⟩ := ih ⟨g, h2, hnd⟩
        exact ⟨g', by simp [hg'], hnd'⟩

theorem groups_cover :
    ∀ (l : Fragment) (acc : List (String × List FNode)) (nd : FNode),
      isFake nd = true → (nd ∈ l ∨ ∃ g ∈ acc, nd ∈ g.2) →
      ∃ g ∈ l.foldl groupStep acc, nd ∈ g.2 := by
  intro l
  induction l with
  | nil =>
    intro acc nd _ h
    rcases h with h | h
    · cases h
    · exact h
  | cons x xs ih =>
    intro acc nd hf h
    rw [List.foldl_cons]
    rcases h with h | h
    · rcases List.mem_cons.mp h with rfl | h2
      · obtain ⟨n, hn⟩ := Option.isSome_iff_exists.mp hf
        refine ih _ nd hf (Or.inr ?_)
        unfold groupStep
        rw [hn]
        exact addToGroup_mem_self acc n nd
      · exact ih _ nd hf (Or.inl h2)
    · refine ih _ nd hf (Or.inr ?_)
      unfold groupStep
      split
      · exact addToGroup_mono h
      · exact h

theorem group_ids_removed :
    ∀ (groups : List (String × List FNode)) (st : List (String × Nat × Nat) × Fragment),
      (∀ g ∈ groups, g.2.length ≤ 2 ∧ ∀ nd ∈ g.2, g.2 = [nd] → nd.markerKind ≠ none) →
      ∀ x, (∃ g ∈ groups, x ∈ g.2) →
        x.id ∉ ((groups.foldl processMarkerGroup st).2.map (fun nd => nd.id)) := by
  intro groups
  induction groups with
  | nil =>
    rintro st _ x ⟨g, hg, _⟩
    cases hg
  | cons g gs ih =>
    rintro st hh x ⟨g0, hg0, hx⟩
    rw [List.foldl_cons]
    rcases List.mem_cons.mp hg0 with rfl | hgs
    · apply id_absent_foldl
      obtain ⟨hlen, hlone⟩ := hh g0 (by simp)
      obtain ⟨name, elems⟩ := g0
      rcases elems with _ | ⟨s, _ | ⟨e, rest⟩⟩
      · cases hx
      · rcases List.mem_singleton.mp hx with rfl
        have hk := hlone x (by simp) rfl
        unfold processMarkerGroup
        dsimp only
        cases hkk : x.markerKind with
        | none => exact absurd hkk hk
        | some k =>
          cases k with
          | bStart => exact id_notin_removeById
          | bEnd => exact id_notin_removeById
      · rcases rest with _ | ⟨r, rest'⟩
        · unfold processMarkerGroup
          rcases List.mem_cons.mp hx with rfl | hx2
          · exact notin_removeById_of_notin id_notin_removeById
          · rcases List.mem_singleton.mp hx2 with rfl
            exact id_notin_removeById
        · exfalso
          simp at hlen
    · exact ih _ (fun g' hg' => hh g' (by simp [hg'])) x ⟨g0, hgs, hx⟩

theorem fragment_cleaned {frag : Fragment}
    (hgr : ∀ g ∈ getAllFakeMarkersFromElement frag,
      g.2.length ≤ 2 ∧ ∀ nd ∈ g.2, g.2 = [nd] → nd.markerKind ≠ none) :
    ∀ nd ∈ (removeFakeMarkersInsideFragment
      (getAllFakeMarkersFromElement frag) frag).2, isFake nd = false := by
  intro nd hnd
  cases hf : isFake nd with
  | false => rfl
  | true =>
    exfalso
    unfold removeFakeMarkersInsideFragment at hnd
    have hmem : nd ∈ frag := frag_subset_foldl (fun x hx => hx) nd hnd
    obtain ⟨g, hg, hin⟩ :=
      groups_cover frag [] nd hf (Or.inl hmem)
    have habs := group_ids_removed (getAllFakeMarkersFromElement frag) ([], frag)
      hgr nd ⟨g, hg, hin⟩
    exact habs (List.mem_map.mpr ⟨nd, hnd, rfl⟩)

/-- A fragment produced by copying two table cells both crossed by one
marker: each cell carried a copy of both sentinels, so four sentinels of
one name survive in the fragment. -/
def c7Frag : Fragment :=
  [⟨0, none, none⟩,
   ⟨10, some "comment:a", some BoundaryKind.bStart⟩,
   ⟨11, some "comment:a", some BoundaryKind.bStart⟩,
   ⟨1, none, none⟩, ⟨2, none, none⟩,
   ⟨12, some "comment:a", some BoundaryKind.bEnd⟩,
   ⟨13, some "comment:a", some BoundaryKind.bEnd⟩,
   ⟨3, none, none⟩]

/-- Counterexample to C7 as stated: a marker intersecting both ranges of a
two-range (multi-cell) selection is collected twice, so encode inserts
four sentinels; when all four copies land in the copied fragment, decode
consumes only the first two of the group and the produced fragment still
contains two `$marker` elements after decode completes. -/
theorem c7_counterexample :
    getCopyableMarkersFromSelection [⟨"comment:a", 1, 3⟩] [(0, 2), (2, 4)]
      = [⟨"comment:a", 1, 3⟩, ⟨"comment:a", 1, 3⟩] ∧
    (sentinelPlan
      (getCopyableMarkersFromSelection [⟨"comment:a", 1, 3⟩] [(0, 2), (2, 4)])).length = 4 ∧
    ((afterCopySelectionMarkersFragment [] c7Frag []).2.1.filter isFake).length = 2 := by
  decide

/-- C7 as amended: every sentinel the encode step inserted into the source
document is removed from the committed document at the end of the copy/cut
operation; the produced fragment ends sentinel-free provided no marker
name has more than two surviving sentinels in it and a lone survivor
carries its boundary kind (when a marker intersects several ranges of a
multi-range selection, extra sentinel copies can land in the fragment,
decode consumes only the first two per name, and the leftovers are dealt
with at paste time). -/
theorem c7_sentinel_cleanup (sourceDoc frag : Fragment) (insertedIds : List Nat)
    (hsrc : ∀ nd ∈ sourceDoc, isFake nd = true → nd.id ∈ insertedIds)
    (hgr : ∀ g ∈ getAllFakeMarkersFromElement frag,
      g.2.length ≤ 2 ∧ ∀ nd ∈ g.2, g.2 = [nd] → nd.markerKind ≠ none) :
    (∀ nd ∈ (afterCopySelectionMarkersFragment sourceDoc frag insertedIds).2.2,
      isFake nd = false) ∧
    (∀ nd ∈ (afterCopySelectionMarkersFragment sourceDoc frag insertedIds).2.1,
      isFake nd = false) := by
  constructor
  · intro nd hnd
    obtain ⟨h1, h2⟩ := mem_foldl_removeById insertedIds sourceDoc hnd
    cases hf : isFake nd with
    | false => rfl
    | true => exact absurd (hsrc nd h1 hf) h2
  · intro nd hnd
    exact fragment_cleaned hgr nd hnd

/-- Witness for the amended C7 on a concrete copy run: two sentinels in
the source, two copies in the fragment. -/
theorem c7_sentinel_cleanup_witness :
    (∀ nd ∈ (afterCopySelectionMarkersFragment
        [⟨20, some "comment:a", some BoundaryKind.bStart⟩, ⟨0, none, none⟩,
          ⟨21, some "comment:a", some BoundaryKind.bEnd⟩]
        [⟨30, some "comment:a", some BoundaryKind.bStart⟩, ⟨4, none, none⟩,
          ⟨31, some "comment:a", some BoundaryKind.bEnd⟩]
        [20, 21]).2.2, isFake nd = false) ∧
    (∀ nd ∈ (afterCopySelectionMarkersFragment
        [⟨20, some "comment:a", some BoundaryKind.bStart⟩, ⟨0, none, none⟩,
          ⟨21, some "comment:a", some BoundaryKind.bEnd⟩]
        [⟨30, some "comment:a", some BoundaryKind.bStart⟩, ⟨4, none, none⟩,
          ⟨31, some "comment:a", some BoundaryKind.bEnd⟩]
        [20, 21]).2.1, isFake nd = false) :=
  c7_sentinel_cleanup
    [⟨20, some "comment:a", some BoundaryKind.bStart⟩, ⟨0, none, none⟩,
      ⟨21, some "comment:a", some BoundaryKind.bEnd⟩]
    [⟨30, some "comment:a", some BoundaryKind.bStart⟩, ⟨4, none, none⟩,
      ⟨31, some "comment:a", some BoundaryKind.bEnd⟩]
    [20, 21] (by decide) (by decide)

/-- Index of the last colon of a character list, if any. -/
def lastIndexOfColon : List Char → Option Nat
  | [] => none
  | c :: rest =>
    match lastIndexOfColon rest with
    | some i => some (i + 1)
    | none => if c = ':' then some 0 else none

/-- JavaScript `markerName.slice(0, markerName.lastIndexOf(':'))`: the
name up to its final colon; with no colon, `lastIndexOf` is -1 and the
slice drops the final character. -/
def lastColonPrefixStr (s : String) : String :=
  match lastIndexOfColon s.data with
  | none => String.mk s.data.dropLast
  | some i => String.mk (s.data.take i)

/-- tableclipboard.ts line 289: the fresh name given to a duplicated
marker: the original name with its final colon-delimited suffix replaced
by a newly generated id. -/
def freshMarkerName (name u : String) : String :=
  lastColonPrefixStr name ++ ":" ++ u

/-- lodash `chunk(positions, 2)`: consecutive pairs in order, the second
component missing for a trailing odd element. -/
def chunk2 : List FNode → List (FNode × Option FNode)
  | [] => []
  | [x] => [(x, none)]
  | x :: y :: rest => (x, some y) :: chunk2 rest

/-- State of the `_convertElementsToMarkers` loop: the markers registered
so far (`writer.addMarker`; a range is recorded by the identities of the
two sentinel nodes its positions were computed from), the ids of the
removed sentinel nodes in removal order, the fresh names generated so far,
and the uid counter (`uid()` is modelled as a deterministic stream
`uidStream : Nat → String` read at this counter). -/
structure ConvState where
  registered : List (String × Nat × Nat)
  removedIds : List Nat
  freshNames : List String
  ctr : Nat
deriving DecidableEq, Repr

/-- tableclipboard.ts `_convertElementsToMarkers` (lines 272-305), inner
loop over the chunks of one marker name: a pair registers a marker — under
the original name for the first chunk, under a fresh name for every later
chunk — and removes the end node then the start node; a lone trailing
element is only removed. -/
def processChunks (u : Nat → String) (markerName : String) :
    List (FNode × Option FNode) → Nat → ConvState → ConvState
  | [], _, st => st
  | (s, none) :: rest, i, st =>
    processChunks u markerName rest (i + 1)
      ⟨st.registered, st.removedIds ++ [s.id], st.freshNames, st.ctr⟩
  | (s, some e) :: rest, i, st =>
    if 0 < i then
      processChunks u markerName rest (i + 1)
        ⟨st.registered ++ [(freshMarkerName markerName (u st.ctr), s.id, e.id)],
         st.removedIds ++ [e.id, s.id],
         st.freshNames ++ [freshMarkerName markerName (u st.ctr)],
         st.ctr + 1⟩
    else
      processChunks u markerName rest (i + 1)
        ⟨st.registered ++ [(markerName, s.id, e.id)],
         st.removedIds ++ [e.id, s.id],
         st.freshNames,
         st.ctr⟩

/-- tableclipboard.ts `_convertElementsToMarkers` (lines 249-267),
collection part: walk the ranges over the replaced cells in document
order and group the items carrying `data-name` by that name. -/
def collectMarkerElements (cells : List Fragment) : List (String × List FNode) :=
  getAllFakeMarkersFromElement cells.flatten

/-- Processing of one name group of `_convertElementsToMarkers`. -/
def processGroupElems (u : Nat → String) (st : ConvState)
    (g : String × List FNode) : ConvState :=
  processChunks u g.1 (chunk2 g.2) 0 st

/-- tableclipboard.ts `_convertElementsToMarkers` (lines 248-306): group
the sentinels found among the replaced cells by marker name and process
each group's consecutive pairs. -/
def convertElementsToMarkers (cells : List Fragment) (u : Nat → String)
    (c0 : Nat) : ConvState :=
  (collectMarkerElements cells).foldl (processGroupElems u) ⟨[], [], [], c0⟩

/-- The consecutive fully-formed pairs of a list (a trailing odd element
forms no pair). -/
def fullPairs : List FNode → List (FNode × FNode)
  | [] => []
  | [_] => []
  | x :: y :: rest => (x, y) :: fullPairs rest

/-- The pairs among a chunk list. -/
def pairsOf (chunks : List (FNode × Option FNode)) : List (FNode × FNode) :=
  chunks.filterMap fun c => c.2.map fun e => (c.1, e)

/-- The node ids a chunk list's processing removes, in removal order. -/
def chunksRemoved : List (FNode × Option FNode) → List Nat
  | [] => []
  | (s, none) :: rest => s.id :: chunksRemoved rest
  | (s, some e) :: rest => e.id :: s.id :: chunksRemoved rest

/-- Claim-side description of the renamed pairs: successive pairs get
fresh names built from successive uids. -/
def renamedPairsSpec (u : Nat → String) (name : String) :
    List (FNode × FNode) → Nat → List (String × Nat × Nat)
  | [], _ => []
  | p :: rest, c =>
    (freshMarkerName name (u c), p.1.id, p.2.id) :: renamedPairsSpec u name rest (c + 1)

/-- Claim-side description of one group's registrations: the first full
pair under the original marker name, every subsequent pair under a fresh
name. -/
def groupRegisteredSpec (u : Nat → String) (name : String) (elems : List FNode)
    (c : Nat) : List (String × Nat × Nat) :=
  match fullPairs elems with
  | [] => []
  | p :: rest => (name, p.1.id, p.2.id) :: renamedPairsSpec u name rest c

/-- The fresh names one group generates. -/
def groupFreshSpec (u : Nat → String) (name : String) (elems : List FNode)
    (c : Nat) : List String :=
  match fullPairs elems with
  | [] => []
  | _ :: rest => (renamedPairsSpec u name rest c).map fun e => e.1

/-- Claim-side description of the whole decode's registrations, group by
group in first-occurrence order, the uid counter advancing by the number
of renamed pairs. -/
def registeredSpec (u : Nat → String) :
    List (String × List FNode) → Nat → List (String × Nat × Nat)
  | [], _ => []
  | g :: rest, c =>
    groupRegisteredSpec u g.1 g.2 c ++
      registeredSpec u rest (c + ((fullPairs g.2).length - 1))

/-- All ids removed, group by group. -/
def removedSpecG : List (String × List FNode) → List Nat
  | [] => []
  | g :: rest => chunksRemoved (chunk2 g.2) ++ removedSpecG rest

/-- All fresh names generated, group by group. -/
def freshSpecG (u : Nat → String) : List (String × List FNode) → Nat → List String
  | [], _ => []
  | g :: rest, c =>
    groupFreshSpec u g.1 g.2 c ++ freshSpecG u rest (c + ((fullPairs g.2).length - 1))

/-- Total number of uid draws. -/
def uidCountG : List (String × List FNode) → Nat
  | [] => 0
  | g :: rest => ((fullPairs g.2).length - 1) + uidCountG rest

theorem twoStepInduction {P : List FNode → Prop} (h0 : P []) (h1 : ∀ x, P [x])
    (h2 : ∀ x y rest, P rest → P (x :: y :: rest)) : ∀ l, P l
  | [] => h0
  | [x] => h1 x
  | x :: y :: rest => h2 x y rest (twoStepInduction h0 h1 h2 rest)

theorem pairsOf_chunk2 : ∀ l, pairsOf (chunk2 l) = fullPairs l := by
  refine twoStepInduction rfl (fun x => rfl) ?_
  intro x y rest ih
  rw [chunk2, fullPairs]
  rw [show pairsOf ((x, some y) :: chunk2 rest) = (x, y) :: pairsOf (chunk2 rest) from rfl, ih]

theorem mem_chunksRemoved_chunk2 : ∀ l, ∀ nd ∈ l, nd.id ∈ chunksRemoved (chunk2 l) := by
  refine twoStepInduction ?_ ?_ ?_
  · intro nd h
    cases h
  · intro x nd h
    rcases List.mem_singleton.mp h with rfl
    simp [chunk2, chunksRemoved]
  · intro x y rest ih nd h
    rw [chunk2, chunksRemoved]
    rcases List.mem_cons.mp h with rfl | h2
    · simp
    · rcases List.mem_cons.mp h2 with rfl | h3
      · simp
      · simp [ih nd h3]

theorem processChunks_ge1 (u : Nat → String) (name : String) :
    ∀ (chunks : List (FNode × Option FNode)) (st : ConvState) (i : Nat), 1 ≤ i →
      processChunks u name chunks i st =
        ⟨st.registered ++ renamedPairsSpec u name (pairsOf chunks) st.ctr,
         st.removedIds ++ chunksRemoved chunks,
         st.freshNames ++ (renamedPairsSpec u name (pairsOf chunks) st.ctr).map (fun e => e.1),
         st.ctr + (pairsOf chunks).length⟩ := by
  intro chunks
  induction chunks with
  | nil =>
    intro st i hi
    simp [processChunks, pairsOf, renamedPairsSpec, chunksRemoved]
  | cons c rest ih =>
    intro st i hi
    obtain ⟨s, e?⟩ := c
    cases e? with
    | none =>
      rw [processChunks, ih _ (i + 1) (by omega)]
      rw [show pairsOf ((s, none) :: rest) = pairsOf rest from rfl]
      rw [show chunksRemoved ((s, none) :: rest) = s.id :: chunksRemoved rest from rfl]
      simp
    | some e =>
      rw [processChunks, if_pos (by omega : 0 < i), ih _ (i + 1) (by omega)]
      rw [show pairsOf ((s, some e) :: rest) = (s, e) :: pairsOf rest from rfl]
      rw [show chunksRemoved ((s, some e) :: rest) = e.id :: s.id :: chunksRemoved rest from rfl]
      rw [renamedPairsSpec]
      simp
      omega

theorem processChunks_zero (u : Nat → String) (name : String) :
    ∀ (elems : List FNode) (st : ConvState),
      processChunks u name (chunk2 elems) 0 st =
        ⟨st.registered ++ groupRegisteredSpec u name elems st.ctr,
         st.removedIds ++ chunksRemoved (chunk2 elems),
         st.freshNames ++ groupFreshSpec u name elems st.ctr,
         st.ctr + ((fullPairs elems).length - 1)⟩ := by
  intro elems st
  match elems with
  | [] =>
    simp [chunk2, processChunks, groupRegisteredSpec, groupFreshSpec, fullPairs,
      chunksRemoved]
  | [x] =>
    simp [chunk2, processChunks, groupRegisteredSpec, groupFreshSpec, fullPairs,
      chunksRemoved]
  | x :: y :: rest =>
    rw [chunk2, processChunks, if_neg (by omega), processChunks_ge1 u name _ _ 1 (by omega)]
    rw [show chunksRemoved ((x, some y) :: chunk2 rest)
      = y.id :: x.id :: chunksRemoved (chunk2 rest) from rfl]
    rw [pairsOf_chunk2]
    rw [show groupRegisteredSpec u name (x :: y :: rest) st.ctr
      = (name, x.id, y.id) :: renamedPairsSpec u name (fullPairs rest) st.ctr from rfl]
    rw [show groupFreshSpec u name (x :: y :: rest) st.ctr
      = (renamedPairsSpec u name (fullPairs rest) st.ctr).map (fun e => e.1) from rfl]
    rw [show (fullPairs (x :: y :: rest)).length = (fullPairs rest).length + 1 from rfl]
    simp

theorem fold_groups (u : Nat → String) :
    ∀ (groups : List (String × List FNode)) (st : ConvState),
      groups.foldl (processGroupElems u) st =
        ⟨st.registered ++ registeredSpec u groups st.ctr,
         st.removedIds ++ removedSpecG groups,
         st.freshNames ++ freshSpecG u groups st.ctr,
         st.ctr + uidCountG groups⟩ := by
  intro groups
  induction groups with
  | nil =>
    intro st
    simp [registeredSpec, removedSpecG, freshSpecG, uidCountG]
  | cons g rest ih =>
    intro st
    rw [List.foldl_cons]
    rw [show processGroupElems u st g = processChunks u g.1 (chunk2 g.2) 0 st from rfl]
    rw [processChunks_zero, ih]
    rw [registeredSpec, removedSpecG, freshSpecG, uidCountG]
    simp
    omega

theorem addToGroup_keys_nodup {groups : List (String × List FNode)} {n : String}
    {x : FNode} (h : (groups.map (fun g => g.1)).Nodup) :
    ((addToGroup groups n x).map (fun g => g.1)).Nodup := by
  induction groups with
  | nil => simp [addToGroup]
  | cons p rest ih =>
    obtain ⟨k, es⟩ := p
    rw [List.map_cons, List.nodup_cons] at h
    by_cases hk : k = n
    · have hadd : addToGroup ((k, es) :: rest) n x = (k, es ++ [x]) :: rest := by
        unfold addToGroup
        rw [if_pos hk]
      rw [hadd, List.map_cons, List.nodup_cons]
      exact h
    · have hadd : addToGroup ((k, es) :: rest) n x = (k, es) :: addToGroup rest n x := by
        unfold addToGroup
        rw [if_neg hk]
        cases rest with
        | nil => rfl
        | cons q qs => rfl
      rw [hadd, List.map_cons, List.nodup_cons]
      refine ⟨?_, ih h.2⟩
      intro hc
      obtain ⟨g, hg, hge⟩ := List.mem_map.mp hc
      rcases addToGroup_key g hg with ⟨g0, hg0, he⟩ | he
      · exact h.1 (List.mem_map.mpr ⟨g0, hg0, by rw [← he, hge]⟩)
      · exact hk (hge.symm.trans he)

theorem collect_keys_nodup {frag : Fragment} :
    ((getAllFakeMarkersFromElement frag).map (fun g => g.1)).Nodup := by
  rw [getAllFakeMarkersFromElement]
  refine foldl_inv groupStep (fun acc => (acc.map (fun g => g.1)).Nodup) ?_ frag [] (by simp)
  intro s nd hs
  unfold groupStep
  split
  · exact addToGroup_keys_nodup hs
  · exact hs

theorem names_registeredSpec_sub (u : Nat → String) :
    ∀ (groups : List (String × List FNode)) (c : Nat) (e : String × Nat × Nat),
      e ∈ registeredSpec u groups c →
      e.1 ∈ groups.map (fun g => g.1) ∨ e.1 ∈ freshSpecG u groups c := by
  intro groups
  induction groups with
  | nil =>
    intro c e h
    cases h
  | cons g rest ih =>
    intro c e h
    rw [registeredSpec] at h
    rcases List.mem_append.mp h with h1 | h2
    · rw [groupRegisteredSpec] at h1
      split at h1
      · cases h1
      · rename_i p restp hfp
        rcases List.mem_cons.mp h1 with rfl | htl
        · exact Or.inl (by simp)
        · refine Or.inr ?_
          rw [freshSpecG]
          refine List.mem_append.mpr (Or.inl ?_)
          rw [groupFreshSpec, hfp]
          exact List.mem_map.mpr ⟨e, htl, rfl⟩
    · rcases ih _ e h2 with hk | hf
      · exact Or.inl (by simp [hk])
      · refine Or.inr ?_
        rw [freshSpecG]
        exact List.mem_append.mpr (Or.inr hf)

theorem length_renamedPairsSpec (u : Nat → String) (name : String) :
    ∀ (ps : List (FNode × FNode)) (c : Nat),
      (renamedPairsSpec u name ps c).length = ps.length := by
  intro ps
  induction ps with
  | nil => intro c; rfl
  | cons p rest ih =>
    intro c
    rw [renamedPairsSpec, List.length_cons, List.length_cons, ih]

theorem length_registeredSpec (u : Nat → String) :
    ∀ (groups : List (String × List FNode)) (c : Nat),
      (registeredSpec u groups c).length
        = (groups.map (fun g => (fullPairs g.2).length)).sum := by
  intro groups
  induction groups with
  | nil => intro c; rfl
  | cons g rest ih =>
    intro c
    rw [registeredSpec, List.length_append, ih, List.map_cons, List.sum_cons]
    have hg : (groupRegisteredSpec u g.1 g.2 c).length = (fullPairs g.2).length := by
      rw [groupRegisteredSpec]
      split
      · rename_i hfp
        rw [hfp]
        rfl
      · rename_i p restp hfp
        rw [hfp, List.length_cons, List.length_cons, length_renamedPairsSpec]
    rw [hg]

theorem mem_removedSpecG :
    ∀ (groups : List (String × List FNode)), ∀ g ∈ groups, ∀ nd ∈ g.2,
      nd.id ∈ removedSpecG groups := by
  intro groups
  induction groups with
  | nil =>
    intro g hg
    cases hg
  | cons g0 rest ih =>
    intro g hg nd hnd
    rw [removedSpecG]
    rcases List.mem_cons.mp hg with rfl | h2
    · exact List.mem_append.mpr (Or.inl (mem_chunksRemoved_chunk2 g.2 nd hnd))
    · exact List.mem_append.mpr (Or.inr (ih g h2 nd hnd))

theorem nodup_registeredSpec (u : Nat → String) :
    ∀ (groups : List (String × List FNode)) (c : Nat),
      (groups.map (fun g => g.1)).Nodup →
      (freshSpecG u groups c).Nodup →
      (∀ n ∈ freshSpecG u groups c, ∀ g ∈ groups, n ≠ g.1) →
      ((registeredSpec u groups c).map (fun e => e.1)).Nodup := by
  intro groups
  induction groups with
  | nil =>
    intro c _ _ _
    simp [registeredSpec]
  | cons g rest ih =>
    intro c hkeys hfresh hdisj
    rw [registeredSpec, List.map_append]
    rw [freshSpecG] at hfresh hdisj
    refine List.Nodup.append ?_ ?_ ?_
    · -- names of the head group
      cases hfp : fullPairs g.2 with
      | nil => simp [groupRegisteredSpec, hfp]
      | cons p restp =>
        rw [groupRegisteredSpec, hfp, List.map_cons, List.nodup_cons]
        constructor
        · intro hc
          obtain ⟨e, he, hge⟩ := List.mem_map.mp hc
          have hin : e.1 ∈ groupFreshSpec u g.1 g.2 c := by
            rw [groupFreshSpec, hfp]
            exact List.mem_map.mpr ⟨e, he, rfl⟩
          exact hdisj e.1 (List.mem_append.mpr (Or.inl hin)) g (by simp) hge
        · have hn1 : (groupFreshSpec u g.1 g.2 c).Nodup := hfresh.of_append_left
          rw [groupFreshSpec, hfp] at hn1
          exact hn1
    · exact ih _ (by rw [List.map_cons] at hkeys; exact hkeys.of_cons)
        hfresh.of_append_right
        (fun n hn g' hg' => hdisj n (List.mem_append.mpr (Or.inr hn)) g' (by simp [hg']))
    · intro a ha hb
      obtain ⟨e1, he1, hge1⟩ := List.mem_map.mp ha
      obtain ⟨e2, he2, hge2⟩ := List.mem_map.mp hb
      have hsub2 := names_registeredSpec_sub u rest _ e2 he2
      have hin1 : e1.1 = g.1 ∨ e1.1 ∈ groupFreshSpec u g.1 g.2 c := by
        rw [groupRegisteredSpec] at he1
        split at he1
        · cases he1
        · rename_i p restp hfp
          rcases List.mem_cons.mp he1 with rfl | htl
          · exact Or.inl rfl
          · refine Or.inr ?_
            rw [groupFreshSpec, hfp]
            exact List.mem_map.mpr ⟨e1, htl, rfl⟩
      rcases hin1 with h1 | h1
      · rcases hsub2 with h2 | h2
        · -- g.1 among rest keys contradicts keys Nodup
          rw [List.map_cons, List.nodup_cons] at hkeys
          exact hkeys.1 (by rw [← h1, hge1, ← hge2]; exact h2)
        · -- g.1 equals a fresh name of rest
          exact hdisj e2.1 (List.mem_append.mpr (Or.inr h2)) g (by simp)
            (by rw [hge2, ← hge1, h1])
      · rcases hsub2 with h2 | h2
        · -- fresh name of head group equals a key of rest
          obtain ⟨g', hg', hge'⟩ := List.mem_map.mp h2
          exact hdisj e1.1 (List.mem_append.mpr (Or.inl h1)) g' (by simp [hg'])
            (by rw [hge1, ← hge2, ← hge'])
        · -- fresh name of head group equals a fresh name of rest
          have hd := List.disjoint_of_nodup_append hfresh
          exact hd h1 (by rw [hge1, ← hge2]; exact h2)

/-- C10: the table-paste decode processes same-name sentinels in
consecutive pairs in document order, registering the first pair under the
original marker name and every subsequent pair under a fresh name (the
original name with its final colon-delimited suffix replaced by the next
freshly generated id), so it never registers two markers with the same
name, a lone trailing sentinel of an odd group is removed without
producing a marker, and every collected sentinel element is removed.  The
freshness of the id stream (its generated names are distinct and collide
with no collected marker name) is assumed, as `uid()` draws random unique
ids. -/
theorem c10_duplicate_marker_pairing (cells : List Fragment) (u : Nat → String)
    (c0 : Nat)
    (hfresh1 : (convertElementsToMarkers cells u c0).freshNames.Nodup)
    (hfresh2 : ∀ n ∈ (convertElementsToMarkers cells u c0).freshNames,
      ∀ g ∈ collectMarkerElements cells, n ≠ g.1) :
    (convertElementsToMarkers cells u c0).registered
        = registeredSpec u (collectMarkerElements cells) c0 ∧
    (∀ g ∈ collectMarkerElements cells, ∀ nd ∈ g.2,
      nd.id ∈ (convertElementsToMarkers cells u c0).removedIds) ∧
    ((convertElementsToMarkers cells u c0).registered.map (fun e => e.1)).Nodup ∧
    (convertElementsToMarkers cells u c0).registered.length
        = ((collectMarkerElements cells).map (fun g => (fullPairs g.2).length)).sum := by
  have heq : convertElementsToMarkers cells u c0
      = ⟨registeredSpec u (collectMarkerElements cells) c0,
         removedSpecG (collectMarkerElements cells),
         freshSpecG u (collectMarkerElements cells) c0,
         c0 + uidCountG (collectMarkerElements cells)⟩ := by
    rw [convertElementsToMarkers, fold_groups]
    simp
  rw [heq] at hfresh1 hfresh2 ⊢
  refine ⟨rfl, ?_, ?_, ?_⟩
  · intro g hg nd hnd
    exact mem_removedSpecG _ g hg nd hnd
  · exact nodup_registeredSpec u _ c0 collect_keys_nodup hfresh1 hfresh2
  · exact length_registeredSpec u _ c0

/-- Replaced cells carrying five copies of one marker's sentinels: two
full pairs and a lone trailing sentinel. -/
def c10Cells : List Fragment :=
  [[⟨1, some "comment:x:1", none⟩, ⟨2, some "comment:x:1", none⟩],
   [⟨3, some "comment:x:1", none⟩, ⟨4, some "comment:x:1", none⟩,
    ⟨5, some "comment:x:1", none⟩]]

/-- A concrete fresh-id stream for the witness. -/
def c10Uid : Nat → String := fun _ => "zz"

/-- Witness for C10 on a concrete duplicated-marker paste. -/
theorem c10_duplicate_marker_pairing_witness :
    (convertElementsToMarkers c10Cells c10Uid 0).registered
        = registeredSpec c10Uid (collectMarkerElements c10Cells) 0 ∧
    (∀ g ∈ collectMarkerElements c10Cells, ∀ nd ∈ g.2,
      nd.id ∈ (convertElementsToMarkers c10Cells c10Uid 0).removedIds) ∧
    ((convertElementsToMarkers c10Cells c10Uid 0).registered.map (fun e => e.1)).Nodup ∧
    (convertElementsToMarkers c10Cells c10Uid 0).registered.length
        = ((collectMarkerElements c10Cells).map (fun g => (fullPairs g.2).length)).sum :=
  c10_duplicate_marker_pairing c10Cells c10Uid 0 (by decide) (by decide)

end MarkerCodec
